import Mathlib

/-!
# Verification of the posthtml-yield-include template-composition engine

This file is a shallow embedding of `posthtml-yield-include.js`, a PostHTML
plugin that expands `<include src="...">` directives by loading a fragment
file, binding the directive's `<yield name="...">` children into the
fragment's `<yield>` placeholders, and splicing the result back in place.

Modelling conventions:
* PostHTML nodes are either literal text strings or objects with `tag`,
  `attrs` and `content` fields.  `tag` is `Option String` (`none` models the
  JS literal `false`, the transparent sentinel).  `attrs` is an association
  list; a value is either a string or the boolean-true sentinel of a
  valueless attribute.  `content` is `Option (List PNode)` (`none` models an
  absent `content` field; `some []` an empty array — JS distinguishes them
  only through truthiness, where `[]` is truthy).
* In-place mutation is rendered functionally: each processing function
  returns the updated subtree.  In the source, every mutation performed by
  `processInclude` is confined to the node it receives (its fields and
  structures reachable from it), so returning the updated node is faithful.
* The possibly non-terminating recursions of the source (slot content that
  splices itself; cyclic include graphs, which the source explicitly does
  not guard against) are given a fuel parameter; running out of fuel is an
  explicit outcome distinct from every behaviour of the source.
* `readFileSync(resolve(root, src), encoding)` and `posthtml().process`
  (parsing) are external collaborators and appear as the two fields of an
  `Env`; `none` from `readFile` models the thrown read error (caught by the
  source), `none` from `parse` models a parse failure (not caught).
-/

/-- A PostHTML attribute value: a string, or the boolean `true` sentinel of a
valueless attribute. -/
inductive AttrVal where
  | str (s : String)
  | boolTrue
deriving DecidableEq, Repr

/-- A PostHTML tree node: literal text, or an element with `tag`, `attrs`,
`content`.  `tag = none` models the JS `false` (transparent) tag. -/
inductive PNode where
  | text (s : String)
  | elem (tag : Option String) (attrs : List (String × AttrVal))
      (content : Option (List PNode))
deriving Repr

/-- First-match association-list lookup (models JS property access `o[k]`:
the lists we build have unique keys). -/
def alookup {α β : Type} [DecidableEq α] (k : α) : List (α × β) → Option β
  | [] => none
  | (k', v) :: rest => if k' = k then some v else alookup k rest

/-- A slot map: JS object mapping slot names to content arrays, rendered as
an association list in insertion order with unique keys. -/
abbrev SlotMap := List (String × List PNode)

/-- JS object assignment `m[k] = v`: overwrite in place if the key exists,
otherwise append (insertion order preserved). -/
def slotInsert (m : SlotMap) (k : String) (v : List PNode) : SlotMap :=
  if (m.any fun p => p.1 = k) then m.map (fun p => if p.1 = k then (k, v) else p)
  else m ++ [(k, v)]

/-- Truthiness-plus-key-coercion of a `name` attribute value: a JS string is
truthy iff non-empty, the boolean `true` coerces to the property key
`"true"`.  Returns the object key used for a truthy name, `none` for a
falsy/missing one. -/
def nameKey : Option AttrVal → Option String
  | some (AttrVal.str s) => if s = "" then none else some s
  | some AttrVal.boolTrue => some "true"
  | none => none

/-- `extractYields` (source lines 184–202): scan the direct children for
element nodes with tag `"yield"` and a truthy `name`; store each one's
content (`child.content || []`) under that name, last write wins. -/
def extractYields (content : List PNode) : SlotMap :=
  content.foldl
    (fun acc child =>
      match child with
      | PNode.text _ => acc
      | PNode.elem tag attrs c =>
        if tag = some "yield" then
          match nameKey (alookup "name" attrs) with
          | some k => slotInsert acc k (c.getD [])
          | none => acc
        else acc)
    []

/-- The `optional` attribute test of `replaceYields` (source line 216):
`attrs.optional === '' || attrs.optional === 'true' || attrs.optional === true`. -/
def isOptional (attrs : List (String × AttrVal)) : Bool :=
  match alookup "optional" attrs with
  | some (AttrVal.str s) => s = "" || s = "true"
  | some AttrVal.boolTrue => true
  | none => false

/-- The three-way in-place rewrite that `replaceYields` applies to a node
with tag `"yield"` (source lines 214–234), before the walk descends into the
(possibly freshly spliced) content. -/
def resolveYieldStep (yields : SlotMap) (attrs : List (String × AttrVal))
    (content : Option (List PNode)) : PNode :=
  match (nameKey (alookup "name" attrs)).bind (fun k => alookup k yields) with
  | some c => PNode.elem none [] (some c)
  | none =>
    if isOptional attrs then PNode.elem none [] (some [])
    else PNode.elem none [] content

/-- Sequence an option-valued rewrite over the elements of an array (the
shape of `walkArray`'s `for` loop: stops at the first divergence). -/
def seqOpt (f : PNode → Option PNode) : List PNode → Option (List PNode)
  | [] => some []
  | n :: rest => do
    let n' ← f n
    let rest' ← seqOpt f rest
    pure (n' :: rest')

/-- Action of `replaceYields`'s inner `walkArray` on one array element
(source lines 210–240): rewrite a `yield` node via `resolveYieldStep`, then
descend into the updated `content` when it is present.  The fuel bounds the
descent depth; the source recursion can diverge when slot content splices
content that itself resolves to more spliced content. -/
def replaceYieldsNode (yields : SlotMap) : Nat → PNode → Option PNode
  | _, PNode.text s => some (PNode.text s)
  | fuel, PNode.elem tag attrs content =>
    match (if tag = some "yield" then resolveYieldStep yields attrs content
           else PNode.elem tag attrs content) with
    | PNode.text s => some (PNode.text s)
    | PNode.elem tag' attrs' none => some (PNode.elem tag' attrs' none)
    | PNode.elem tag' attrs' (some cs) =>
      match fuel with
      | 0 => none
      | fuel' + 1 =>
        (seqOpt (fun m => replaceYieldsNode yields fuel' m) cs).map
          (fun cs' => PNode.elem tag' attrs' (some cs'))

/-- `walkArray` of `replaceYields` (source lines 207–242) over a content
array. -/
def replaceYieldsArr (yields : SlotMap) (fuel : Nat) (ns : List PNode) :
    Option (List PNode) :=
  seqOpt (fun m => replaceYieldsNode yields fuel m) ns

/-- `replaceYields(tree, yields)` as invoked by `processInclude` (the tree is
the array returned by the parser; source lines 244–245 take the array
branch). -/
def replaceYields (yields : SlotMap) (fuel : Nat) (tree : List PNode) :
    Option (List PNode) :=
  replaceYieldsArr yields fuel tree

/-- Truthiness of a JS `tag` value: `false` (here `none`) and the empty
string are falsy. -/
def tagTruthy : Option String → Option String
  | some t => if t = "" then none else some t
  | none => none

/-- The attribute-serialization loop of `contentToString` (source lines
161–169): a `true` or empty-string value prints as a bare attribute,
anything else as ` key="value"`. -/
def attrsToString (attrs : List (String × AttrVal)) : String :=
  attrs.foldl
    (fun acc kv =>
      match kv with
      | (k, AttrVal.boolTrue) => acc ++ " " ++ k
      | (k, AttrVal.str s) =>
        if s = "" then acc ++ " " ++ k
        else acc ++ " " ++ k ++ "=\"" ++ s ++ "\"")
    ""

mutual

/-- One item of `contentToString`'s map (source lines 154–180): a string
passes through; an element with a truthy tag is re-serialized with its
attributes and recursively flattened content; a transparent element
flattens to its content. -/
def itemToString : PNode → String
  | PNode.text s => s
  | PNode.elem tag attrs content =>
    match tagTruthy tag with
    | some t =>
      "<" ++ t ++ attrsToString attrs ++ ">"
        ++ (match content with
            | some cs => contentToString cs
            | none => "")
        ++ "</" ++ t ++ ">"
    | none =>
      match content with
      | some cs => contentToString cs
      | none => ""

/-- `contentToString` (source lines 149–182) on a content array: flatten
each item and join. -/
def contentToString : List PNode → String
  | [] => ""
  | item :: rest => itemToString item ++ contentToString rest

end

/-! ## The attribute-text rewriter's regular expressions

`replaceYieldsInAttributes` (source lines 131–146) works with two concrete
regexes over the raw fragment source.  We model them with a small list-of-
atoms pattern language whose only constructs are the ones those regexes
use — literals, single-character classes, greedy star/plus over a character
class, and capture-group position marks — together with a backtracking
matcher that reproduces the JS engine's greedy-with-backtracking order, and
a global-replace driver that scans left to right and continues after each
match. -/

/-- One regex atom. `mark n` records the current offset under label `n`;
capture group `g` is delimited by `mark (2*g)` / `mark (2*g+1)`. -/
inductive Atom where
  | lit (cs : List Char)
  | one (p : Char → Bool)
  | star (p : Char → Bool)
  | plus (p : Char → Bool)
  | mark (n : Nat)

/-- Strip a literal prefix. -/
def stripPrefix : List Char → List Char → Option (List Char)
  | [], s => some s
  | _ :: _, [] => none
  | c :: cs, d :: ds => if c = d then stripPrefix cs ds else none

/-- Length of the maximal run of characters satisfying `p`. -/
def runLen (p : Char → Bool) : List Char → Nat
  | [] => 0
  | c :: cs => if p c then runLen p cs + 1 else 0

/-- Greedy backtracking over the consumption count of a quantifier: try
`f k`, then `f (k-1)`, …, then `f 0`, returning the first success. -/
def tryCounts {α : Type} (f : Nat → Option α) : Nat → Option α
  | 0 => f 0
  | k + 1 =>
    match f (k + 1) with
    | some r => some r
    | none => tryCounts f k

/-- Match a pattern against a prefix of `s` (current absolute offset `off`,
recorded marks `marks`), returning the end offset of the match and the
marks.  Greedy quantifiers try the longest consumption first and backtrack,
exactly as the JS engine does for these patterns (no quantifier nests
inside another, so count-by-count backtracking is complete). -/
def matchAtoms : List Atom → List Char → Nat → List (Nat × Nat) →
    Option (Nat × List (Nat × Nat))
  | [], _, off, marks => some (off, marks)
  | Atom.lit cs :: rest, s, off, marks =>
    match stripPrefix cs s with
    | some s' => matchAtoms rest s' (off + cs.length) marks
    | none => none
  | Atom.one p :: rest, s, off, marks =>
    match s with
    | [] => none
    | c :: s' => if p c then matchAtoms rest s' (off + 1) marks else none
  | Atom.mark n :: rest, s, off, marks => matchAtoms rest s off ((n, off) :: marks)
  | Atom.star p :: rest, s, off, marks =>
    tryCounts (fun k => matchAtoms rest (s.drop k) (off + k) marks) (runLen p s)
  | Atom.plus p :: rest, s, off, marks =>
    match s with
    | [] => none
    | c :: s' =>
      if p c then
        tryCounts (fun k => matchAtoms rest (s'.drop k) (off + 1 + k) marks)
          (runLen p s')
      else none

/-- JS `\w`. -/
def isWordChar (c : Char) : Bool := c.isAlpha || c.isDigit || c = '_'

/-- JS `\s` on the whitespace characters relevant to markup source. -/
def isSpaceChar (c : Char) : Bool :=
  c = ' ' || c = '\t' || c = '\n' || c = '\r' || c = '\x0b' || c = '\x0c'

/-- JS `["']`. -/
def isQuoteChar (c : Char) : Bool := c = '"' || c = '\''

/-- The outer regex of `replaceYieldsInAttributes` (source line 134):
`(\w+)="([^"]*<yield\s+name=["']([^"']+)["'][^>]*>([^<]*)<\/yield>[^"]*)"`.
Capture group `g` is delimited by marks `2*g-2`/`2*g-1` shifted to a 0-based
scheme: group 1 (attribute name) uses marks 0/1, group 2 (attribute value)
marks 2/3, group 3 (yield name) marks 4/5, group 4 (default text) marks 6/7. -/
def attrPattern : List Atom :=
  [ Atom.mark 0, Atom.plus isWordChar, Atom.mark 1,
    Atom.lit ['=', '"'],
    Atom.mark 2,
    Atom.star (fun c => c != '"'),
    Atom.lit "<yield".toList,
    Atom.plus isSpaceChar,
    Atom.lit "name=".toList,
    Atom.one isQuoteChar,
    Atom.mark 4, Atom.plus (fun c => c != '"' && c != '\''), Atom.mark 5,
    Atom.one isQuoteChar,
    Atom.star (fun c => c != '>'),
    Atom.lit ['>'],
    Atom.mark 6, Atom.star (fun c => c != '<'), Atom.mark 7,
    Atom.lit "</yield>".toList,
    Atom.star (fun c => c != '"'),
    Atom.mark 3,
    Atom.lit ['"'] ]

/-- Characters that a JS `RegExp` source compiles as plain pattern
characters, matched literally: everything except the syntax characters
`^ $ \ . * + ? ( ) [ ] { } |`. -/
def regexPlainChar (c : Char) : Bool :=
  !(c = '^' || c = '$' || c = '\\' || c = '.' || c = '*' || c = '+' ||
    c = '?' || c = '(' || c = ')' || c = '[' || c = ']' ||
    c = '\x7b' || c = '\x7d' || c = '|')

/-- The compiled inner pattern for a yield name of plain characters:
`<yield`, whitespace, `name=`, a quote, the name literally, a quote,
`[^>]*`, `>`, the capture group `([^<]*)` (marks 0/1), `</yield>`. -/
def yieldPatternAtoms (name : List Char) : List Atom :=
  [ Atom.lit "<yield".toList, Atom.plus isSpaceChar, Atom.lit "name=".toList,
    Atom.one isQuoteChar, Atom.lit name, Atom.one isQuoteChar,
    Atom.star (fun c => c != '>'), Atom.lit ['>'],
    Atom.mark 0, Atom.star (fun c => c != '<'), Atom.mark 1,
    Atom.lit "</yield>".toList ]

/-- The inner regex built per match (source line 138):
`new RegExp('<yield\\s+name=["\x27]' + yieldName + '["\x27][^>]*>([^<]*)<\\/yield>', 'g')`,
with the matched yield name interpolated *unescaped*.  When every character
of the name is a plain pattern character, the interpolated segment compiles
to a literal match of the name and the whole pattern to
`yieldPatternAtoms`.  A name containing a regex syntax character instead
changes the compiled pattern (for example `x*` turns the `x` into a
quantified atom, so the pattern no longer matches the placeholder span) or
fails to compile at all (for example a lone `(`), making the `RegExp`
constructor throw a `SyntaxError` that the source does not catch.  Neither
of those behaviours is part of this embedding — `none` marks the region as
unmodelled, and every theorem about the rewriter restricts the yield name
to plain characters. -/
def yieldPattern (name : List Char) : Option (List Atom) :=
  if name.all regexPlainChar then some (yieldPatternAtoms name) else none

/-- JS `String.prototype.replace` with a global regex: scan left to right
(tracking the absolute position `pos` of the scan in the subject); at each
position try the pattern; on a match, emit the output of `f` — which
receives the match position, the matched span and the recorded marks — and
resume after the match, otherwise emit the character and advance by one.
(The zero-length-match guard is unreachable for the two patterns above,
which cannot match the empty string.) -/
def replaceAllGo (pat : List Atom)
    (f : Nat → List Char → List (Nat × Nat) → List Char) :
    Nat → Nat → List Char → List Char
  | 0, _, s => s
  | _ + 1, _, [] => []
  | fuel + 1, pos, c :: rest =>
    match matchAtoms pat (c :: rest) 0 [] with
    | some (len, marks) =>
      if len = 0 then c :: replaceAllGo pat f fuel (pos + 1) rest
      else
        f pos ((c :: rest).take len) marks ++
          replaceAllGo pat f fuel (pos + len) ((c :: rest).drop len)
    | none => c :: replaceAllGo pat f fuel (pos + 1) rest

/-- Entry point of the scan: every step consumes at least one character, so
a fuel of the string length makes `replaceAllGo`'s bail-out unreachable. -/
def replaceAll (pat : List Atom)
    (f : Nat → List Char → List (Nat × Nat) → List Char) (s : List Char) :
    List Char :=
  replaceAllGo pat f s.length 0 s

/-- Extract capture group `g` from a match span `m` and its recorded marks. -/
def capture (m : List Char) (marks : List (Nat × Nat)) (g : Nat) : List Char :=
  ((m.take ((alookup (2 * g + 1) marks).getD 0)).drop ((alookup (2 * g) marks).getD 0))

/-- One scan step of JS `GetSubstitution` (ECMA-262 22.2.7.2), which
`String.prototype.replace` applies when the replacement argument is a
*string* (as at source line 143): scan the replacement left to right and
expand `$$` to `$`, `$&` to the matched span, `` $` `` to the part of the
subject before the match, `$'` to the part after it, and `$n` / `$nn` to
the n-th capture — two digits are read when the two-digit number does not
exceed the capture count, otherwise one digit is retried; a reference of
`0` or above the capture count stays literal.  `$<` stays literal because
the pattern declares no named groups, and any other `$` is literal.  The
recursion is structural on a fuel that every step decreases while consuming
at least one character, so a fuel of the replacement's length makes the
bail-out unreachable. -/
def getSubstitutionGo (matched before after : List Char)
    (caps : List (List Char)) : Nat → List Char → List Char
  | 0, s => s
  | _ + 1, [] => []
  | fuel + 1, c :: rest =>
    if c = '$' then
      match rest with
      | [] => ['$']
      | c₁ :: r =>
        if c₁ = '$' then '$' :: getSubstitutionGo matched before after caps fuel r
        else if c₁ = '&' then
          matched ++ getSubstitutionGo matched before after caps fuel r
        else if c₁ = '\x60' then
          before ++ getSubstitutionGo matched before after caps fuel r
        else if c₁ = '\'' then
          after ++ getSubstitutionGo matched before after caps fuel r
        else if c₁ = '<' then
          '$' :: '<' :: getSubstitutionGo matched before after caps fuel r
        else if c₁.isDigit then
          match r with
          | c₂ :: r₂ =>
            if c₂.isDigit then
              if 1 ≤ (c₁.toNat - 48) * 10 + (c₂.toNat - 48) ∧
                  (c₁.toNat - 48) * 10 + (c₂.toNat - 48) ≤ caps.length then
                caps.getD ((c₁.toNat - 48) * 10 + (c₂.toNat - 48) - 1) [] ++
                  getSubstitutionGo matched before after caps fuel r₂
              else if 1 ≤ c₁.toNat - 48 ∧ c₁.toNat - 48 ≤ caps.length then
                caps.getD (c₁.toNat - 48 - 1) [] ++
                  getSubstitutionGo matched before after caps fuel (c₂ :: r₂)
              else
                '$' :: c₁ :: getSubstitutionGo matched before after caps fuel (c₂ :: r₂)
            else if 1 ≤ c₁.toNat - 48 ∧ c₁.toNat - 48 ≤ caps.length then
              caps.getD (c₁.toNat - 48 - 1) [] ++
                getSubstitutionGo matched before after caps fuel (c₂ :: r₂)
            else
              '$' :: c₁ :: getSubstitutionGo matched before after caps fuel (c₂ :: r₂)
          | [] =>
            if 1 ≤ c₁.toNat - 48 ∧ c₁.toNat - 48 ≤ caps.length then
              caps.getD (c₁.toNat - 48 - 1) []
            else ['$', c₁]
        else '$' :: getSubstitutionGo matched before after caps fuel rest
    else c :: getSubstitutionGo matched before after caps fuel rest

/-- JS `GetSubstitution` over a whole replacement string. -/
def getSubstitution (matched before after : List Char)
    (caps : List (List Char)) (repl : List Char) : List Char :=
  getSubstitutionGo matched before after caps repl.length repl

/-- The replacement chosen by the rewriter's callback (source lines
139–141): the flattened bound content when the yield name is bound, else
`defaultContent || ''`. -/
def yieldReplacement (yields : SlotMap) (yieldName defaultContent : String) : String :=
  match alookup yieldName yields with
  | some c => contentToString c
  | none => if defaultContent = "" then "" else defaultContent

/-- The inner `attrValue.replace(yieldPattern, replacement)` of the
rewriter's callback (source line 143).  The replacement argument is a
*string*, so JS applies `GetSubstitution` to it at every match: `$$`,
`$&`, `` $` ``, `$'` and `$1` (the pattern's single capture group, which
always participates) are expanded, not inserted literally.  When the
dynamic pattern is outside the modelled region (`yieldPattern` returns
`none`, i.e. the name contains regex syntax characters) the value is
returned unchanged as a placeholder; no theorem reaches that branch. -/
def replaceYieldsInAttribute (attrValue : List Char) (yieldName : String)
    (repl : String) : List Char :=
  match yieldPattern yieldName.toList with
  | some pat =>
    replaceAll pat
      (fun pos m marks =>
        getSubstitution m (attrValue.take pos)
          (attrValue.drop (pos + m.length)) [capture m marks 0] repl.toList)
      attrValue
  | none => attrValue

/-- `replaceYieldsInAttributes` (source lines 131–146): rewrite, in the raw
fragment source, every attribute value containing an embedded
`<yield name="N">DEFAULT</yield>` span, replacing each span of the matched
name inside the attribute value with `yieldReplacement` (via the inner
string replace, which interprets `$` sequences).  The outer replace passes
a *function* callback (source line 136), so its return value is inserted
literally — no substitution applies at the outer level. -/
def replaceYieldsInAttributes (html : String) (yields : SlotMap) : String :=
  String.mk (replaceAll attrPattern
    (fun _ m marks =>
      let attrName := capture m marks 0
      let attrValue := capture m marks 1
      let yieldName := String.mk (capture m marks 2)
      let defaultContent := String.mk (capture m marks 3)
      let newAttrValue := replaceYieldsInAttribute attrValue yieldName
        (yieldReplacement yields yieldName defaultContent)
      attrName ++ ('=' :: '"' :: (newAttrValue ++ ['"'])))
    html.toList)

/-! ## The recursive expansion driver

`processTree` (source lines 65–76) snapshots every include node of the tree
up front with `findIncludes` and then processes each one.  The source works
with node references; here node positions are paths of child indices, and
each processing step returns the updated tree.  `processInclude` only ever
mutates the node it is handed (and structures reachable from it), so
splicing the returned node back at its path renders the mutation.  The file
system and the markup parser are the two external collaborators. -/

/-- External collaborators: `readFile src` models
`readFileSync(resolve(root, src), encoding)` for the fixed root and
encoding of one expansion (`none` = the thrown read error), and `parse`
models `posthtml().process` (`none` = a parse failure, which the source
does not catch). -/
structure Env where
  readFile : String → Option String
  parse : String → Option (List PNode)

/-- The two diagnostic log lines of the source: the invalid-`src` warning of
`processInclude` (line 83) and the read-failure error (line 93). -/
inductive LogEntry where
  | warnInvalidSrc
  | errorReadFail (src : String)
deriving DecidableEq, Repr

/-- Abnormal outcomes of the driver: a fragment parse failure (uncaught in
the source, aborts the document) and fuel exhaustion (a divergence of the
source, e.g. a cyclic include graph, which it does not guard against). -/
inductive Fail where
  | parseFail
  | outOfFuel
deriving DecidableEq, Repr

/-- The collection test of `findIncludes` (source lines 55–58): tag is
`'include'` and `attrs.src` is a non-empty string. -/
def isValidInclude : PNode → Bool
  | PNode.text _ => false
  | PNode.elem tag attrs _ =>
    tag = some "include" &&
      (match alookup "src" attrs with
       | some (AttrVal.str s) => s ≠ ""
       | _ => false)

mutual

/-- Paths (child-index sequences, relative to a node) of the nodes that
`walkNodes` visits inside one node and that satisfy `isValidInclude`; the
node itself has relative path `[]`.  `walkNodes` (source lines 34–47) is a
pre-order walk that descends into `content` whenever it is present. -/
def incPathsNode : PNode → List (List Nat)
  | PNode.text _ => []
  | PNode.elem tag attrs content =>
    (if isValidInclude (PNode.elem tag attrs content) then [([] : List Nat)] else [])
      ++ (match content with
          | some cs => incPathsArrFrom 0 cs
          | none => [])

/-- Paths of the valid include nodes inside a child array, the first child
carrying index `i`. -/
def incPathsArrFrom : Nat → List PNode → List (List Nat)
  | _, [] => []
  | i, n :: rest =>
    (incPathsNode n).map (fun p => i :: p) ++ incPathsArrFrom (i + 1) rest

end

/-- `findIncludes` (source lines 50–63), as the pre-order list of paths of
the valid include nodes of a tree. -/
def findIncludePaths (nodes : List PNode) : List (List Nat) :=
  incPathsArrFrom 0 nodes

/-- Fetch the node at a path (the empty path does not denote a node of an
array-rooted tree). -/
def getAt : List PNode → List Nat → Option PNode
  | _, [] => none
  | ns, [i] => ns.get? i
  | ns, i :: q => 
    match ns.get? i with
    | some (PNode.elem _ _ (some cs)) => getAt cs q
    | _ => none

/-- Replace the node at a path, leaving the tree unchanged when the path
does not denote a node. -/
def setAt : List PNode → List Nat → PNode → List PNode
  | ns, [], _ => ns
  | ns, [i], x => ns.set i x
  | ns, i :: q, x =>
    match h : ns.get? i with
    | some (PNode.elem t a (some cs)) => ns.set i (PNode.elem t a (some (setAt cs q x)))
    | _ => ns

/-- The `for (const node of includeNodes)` loop of `processTree` (source
lines 73–75), parameterized by the fuel-instantiated `processInclude`:
fetch the node now at each collected path, process it, splice the updated
node back.  A path that no longer denotes a node (its collected node was
detached by an earlier expansion) is passed over. -/
def processPathsF (pi : PNode → Except Fail (PNode × List LogEntry)) :
    List (List Nat) → List PNode → Except Fail (List PNode × List LogEntry)
  | [], tree => Except.ok (tree, [])
  | p :: rest, tree =>
    match getAt tree p with
    | none => processPathsF pi rest tree
    | some n => do
      let (n', logs₁) ← pi n
      let (tree', logs₂) ← processPathsF pi rest (setAt tree p n')
      Except.ok (tree', logs₁ ++ logs₂)

/-- `processTree` (source lines 65–76), parameterized by the
fuel-instantiated `processInclude`: snapshot all valid include nodes, then
process each collected node in order. -/
def processTreeF (pi : PNode → Except Fail (PNode × List LogEntry))
    (nodes : List PNode) : Except Fail (List PNode × List LogEntry) :=
  processPathsF pi (findIncludePaths nodes) nodes

/-- The slot-content pre-pass of `processInclude` (source lines 101–106),
parameterized by the fuel-instantiated `processTree`: recursively expand
every slot binding's content, in insertion order. -/
def processSlotsF (pt : List PNode → Except Fail (List PNode × List LogEntry)) :
    SlotMap → Except Fail (SlotMap × List LogEntry)
  | [] => Except.ok ([], [])
  | (k, v) :: rest => do
    let (v', logs₁) ← pt v
    let (rest', logs₂) ← processSlotsF pt rest
    Except.ok ((k, v') :: rest', logs₁ ++ logs₂)

/-- `processInclude` (source lines 78–126) on one node, returning the
updated node: skip with a warning when `src` is not a non-empty string;
log an error and leave the node untouched when the fragment cannot be
read; otherwise extract the slots, recursively expand each slot's bound
content, rewrite attribute-embedded placeholders in the raw fragment
source, parse it (a failure here propagates), run the slot substitution
pass, recursively expand the fragment tree, and finally turn the node into
a transparent wrapper of the expanded fragment. -/
def processInclude (env : Env) : Nat → PNode → Except Fail (PNode × List LogEntry)
  | fuel, n =>
    match alookup "src" (match n with | PNode.text _ => [] | PNode.elem _ a _ => a) with
    | some (AttrVal.str src) =>
      if src = "" then Except.ok (n, [LogEntry.warnInvalidSrc])
      else
        match env.readFile src with
        | none => Except.ok (n, [LogEntry.errorReadFail src])
        | some fileContent =>
          match fuel with
          | 0 => Except.error Fail.outOfFuel
          | fuel' + 1 => do
            let yields := extractYields
              ((match n with | PNode.text _ => none | PNode.elem _ _ c => c).getD [])
            let (yields', logsA) ←
              processSlotsF (fun v => processTreeF (fun m => processInclude env fuel' m) v)
                yields
            let rewritten := replaceYieldsInAttributes fileContent yields'
            match env.parse rewritten with
            | none => Except.error Fail.parseFail
            | some includedTree =>
              match replaceYieldsArr yields' fuel' includedTree with
              | none => Except.error Fail.outOfFuel
              | some substituted => do
                let (finalTree, logsB) ←
                  processTreeF (fun m => processInclude env fuel' m) substituted
                Except.ok (PNode.elem none [] (some finalTree), logsA ++ logsB)
    | _ => Except.ok (n, [LogEntry.warnInvalidSrc])

/-- `processTree` at a given fuel: each collected node is processed by
`processInclude` at the same fuel (which spends one unit before its own
recursive expansions). -/
def processTree (env : Env) (fuel : Nat) (nodes : List PNode) :
    Except Fail (List PNode × List LogEntry) :=
  processTreeF (fun m => processInclude env fuel m) nodes

/-- The collected-nodes loop at a given fuel. -/
def processPaths (env : Env) (fuel : Nat) (ps : List (List Nat))
    (tree : List PNode) : Except Fail (List PNode × List LogEntry) :=
  processPathsF (fun m => processInclude env fuel m) ps tree

/-- The exported plugin body (source lines 27–30): run `processTree` on the
document tree and hand the (mutated) tree back to the invoking tool.  A
`Fail.parseFail` escapes to that tool. -/
def yieldIncludePlugin (env : Env) (fuel : Nat) (tree : List PNode) :
    Except Fail (List PNode × List LogEntry) :=
  processTree env fuel tree

/-! ## Association-list facts about the slot map -/

theorem alookup_cons {α β : Type} [DecidableEq α] (k k₀ : α) (v₀ : β)
    (rest : List (α × β)) :
    alookup k ((k₀, v₀) :: rest) = if k₀ = k then some v₀ else alookup k rest := rfl

theorem alookup_map_overwrite {β : Type} (k k' : String) (v : β)
    (m : List (String × β)) (h : k' ≠ k) :
    alookup k (m.map (fun p => if p.1 = k' then (k', v) else p)) = alookup k m := by
  induction m with
  | nil => rfl
  | cons hd tl ih =>
    obtain ⟨k₀, v₀⟩ := hd
    rw [List.map_cons]
    by_cases h₀ : k₀ = k'
    · subst h₀
      have e : (if (k₀, v₀).1 = k₀ then (k₀, v) else (k₀, v₀)) = (k₀, v) := by simp
      rw [e, alookup_cons, alookup_cons, if_neg h, if_neg h]
      exact ih
    · have e : (if (k₀, v₀).1 = k' then (k', v) else (k₀, v₀)) = (k₀, v₀) := by simp [h₀]
      rw [e, alookup_cons, alookup_cons]
      by_cases hk : k₀ = k
      · rw [if_pos hk, if_pos hk]
      · rw [if_neg hk, if_neg hk]; exact ih

theorem alookup_map_overwrite_self {β : Type} (k : String) (v : β)
    (m : List (String × β)) (h : m.any (fun p => p.1 = k) = true) :
    alookup k (m.map (fun p => if p.1 = k then (k, v) else p)) = some v := by
  induction m with
  | nil => simp at h
  | cons hd tl ih =>
    obtain ⟨k₀, v₀⟩ := hd
    rw [List.map_cons]
    by_cases h₀ : k₀ = k
    · subst h₀
      have e : (if (k₀, v₀).1 = k₀ then (k₀, v) else (k₀, v₀)) = (k₀, v) := by simp
      rw [e, alookup_cons, if_pos rfl]
    · simp only [List.any_cons, Bool.or_eq_true, decide_eq_true_eq] at h
      rcases h with h | h
      · exact absurd h h₀
      · have e : (if (k₀, v₀).1 = k then (k, v) else (k₀, v₀)) = (k₀, v₀) := by simp [h₀]
        rw [e, alookup_cons, if_neg h₀]
        exact ih (by simpa using h)

theorem alookup_none_of_any_false {β : Type} (k : String)
    (m : List (String × β)) (h : m.any (fun p => p.1 = k) = false) :
    alookup k m = none := by
  induction m with
  | nil => rfl
  | cons hd tl ih =>
    obtain ⟨k₀, v₀⟩ := hd
    simp only [List.any_cons, Bool.or_eq_false_iff, decide_eq_false_iff_not] at h
    simp only [alookup, if_neg h.1]
    exact ih (by simpa using h.2)

theorem alookup_append {β : Type} (k : String) (m l : List (String × β)) :
    alookup k (m ++ l) =
      match alookup k m with
      | some v => some v
      | none => alookup k l := by
  induction m with
  | nil => rfl
  | cons hd tl ih =>
    obtain ⟨k₀, v₀⟩ := hd
    by_cases hk : k₀ = k
    · simp [alookup, if_pos hk]
    · simpa [alookup, if_neg hk] using ih

/-- Lookup after a JS-object assignment. -/
theorem alookup_slotInsert (m : SlotMap) (k k' : String) (v : List PNode) :
    alookup k (slotInsert m k' v) = if k' = k then some v else alookup k m := by
  unfold slotInsert
  by_cases hany : m.any (fun p => p.1 = k') = true
  · rw [if_pos hany]
    by_cases hk : k' = k
    · rw [if_pos hk, ← hk]
      exact alookup_map_overwrite_self k' v m hany
    · rw [if_neg hk]
      exact alookup_map_overwrite k k' v m hk
  · rw [if_neg hany]
    rw [alookup_append]
    have hnone : alookup k' m = none :=
      alookup_none_of_any_false k' m (Bool.not_eq_true _ ▸ hany)
    by_cases hk : k' = k
    · rw [if_pos hk]
      rw [hk] at hnone
      rw [hnone]
      show alookup k [(k', v)] = some v
      rw [alookup_cons, if_pos hk]
    · rw [if_neg hk]
      cases hm : alookup k m with
      | none =>
        show alookup k [(k', v)] = none
        rw [alookup_cons, if_neg hk]
        rfl
      | some w => rfl

/-! ## Claim C3: characterisation of slot extraction -/

/-- The loop body of `extractYields` (source lines 191–199). -/
def extractStep (acc : SlotMap) (child : PNode) : SlotMap :=
  match child with
  | PNode.text _ => acc
  | PNode.elem tag attrs c =>
    if tag = some "yield" then
      match nameKey (alookup "name" attrs) with
      | some k => slotInsert acc k (c.getD [])
      | none => acc
    else acc

theorem extractYields_eq_foldl (cs : List PNode) :
    extractYields cs = cs.foldl extractStep [] := by
  unfold extractYields extractStep
  rfl

/-- Following the spec's words (§4.2): does this direct child bind slot `k`,
i.e. is it a node with tag `"yield"` and a truthy `name` denoting `k`? -/
def isSlotBindingFor (k : String) : PNode → Bool
  | PNode.text _ => false
  | PNode.elem tag attrs _ =>
    decide (tag = some "yield") && decide (nameKey (alookup "name" attrs) = some k)

/-- Following the spec's words (§4.2): the content a binding child supplies
(`content`, or the empty sequence if absent). -/
def suppliedContent : PNode → List PNode
  | PNode.text _ => []
  | PNode.elem _ _ c => c.getD []

/-- Following the spec's words (§4.2): the binding for `k` among the direct
children is the last child that binds `k` (scanning only the direct
children, never recursing), if any. -/
def extractSlotsSpec (cs : List PNode) (k : String) : Option (List PNode) :=
  (cs.reverse.find? (isSlotBindingFor k)).map suppliedContent

theorem extractYields_go (cs : List PNode) :
    ∀ (acc : SlotMap) (k : String),
      alookup k (cs.foldl extractStep acc) =
        match cs.reverse.find? (isSlotBindingFor k) with
        | some x => some (suppliedContent x)
        | none => alookup k acc := by
  induction cs with
  | nil => intro acc k; rfl
  | cons c cs' ih =>
    intro acc k
    have hsplit : (c :: cs').reverse.find? (isSlotBindingFor k) =
        ((cs'.reverse.find? (isSlotBindingFor k)).or
          ([c].find? (isSlotBindingFor k))) := by
      rw [List.reverse_cons, List.find?_append]
    rw [List.foldl_cons, ih (extractStep acc c) k, hsplit]
    cases hfound : cs'.reverse.find? (isSlotBindingFor k) with
    | some x => simp
    | none =>
      simp only [Option.none_or]
      cases c with
      | text s => simp [List.find?, isSlotBindingFor, extractStep]
      | elem tag attrs cc =>
        by_cases htag : tag = some "yield"
        · subst htag
          cases hname : nameKey (alookup "name" attrs) with
          | none =>
            simp [List.find?, isSlotBindingFor, extractStep, hname]
          | some k' =>
            by_cases hk : k' = k
            · subst hk
              simp [List.find?, isSlotBindingFor, extractStep, hname,
                alookup_slotInsert, suppliedContent]
            · simp [List.find?, isSlotBindingFor, extractStep, hname,
                alookup_slotInsert, hk]
        · simp [List.find?, isSlotBindingFor, extractStep, htag]

/-- C3: slot extraction is total, scans only the direct children of the
supplied sequence, binds exactly the children that are nodes with tag
`"yield"` and a truthy `name` attribute, stores each such child's content
(or the empty sequence when `content` is absent) under that name, and when
a name repeats the last binding wins: looking up any key in the extracted
map yields precisely the supplied content of the *last* direct child
binding that key. -/
theorem extractYields_characterisation (cs : List PNode) (k : String) :
    alookup k (extractYields cs) = extractSlotsSpec cs k := by
  rw [extractYields_eq_foldl, extractYields_go cs [] k, extractSlotsSpec]
  cases h : cs.reverse.find? (isSlotBindingFor k) <;> simp [alookup]

/-! ## Claims C1, C9, C10: the slot substitution pass -/

/-- The binding the substitution pass consults for a placeholder's
attributes: `name && yields[name] !== undefined` (source line 218). -/
def bindingOf (yields : SlotMap) (attrs : List (String × AttrVal)) :
    Option (List PNode) :=
  (nameKey (alookup "name" attrs)).bind (fun k => alookup k yields)

theorem resolveYieldStep_eq (yields : SlotMap) (attrs : List (String × AttrVal))
    (content : Option (List PNode)) :
    resolveYieldStep yields attrs content =
      PNode.elem none []
        (match bindingOf yields attrs with
         | some c => some c
         | none => if isOptional attrs then some [] else content) := by
  unfold resolveYieldStep bindingOf
  cases (nameKey (alookup "name" attrs)).bind (fun k => alookup k yields) with
  | none =>
    by_cases hopt : isOptional attrs
    · simp [hopt]
    · simp [hopt]
  | some c => rfl

mutual

/-- No node reachable through nested `content` arrays from this node has
tag `"yield"`. -/
def noYieldNode : PNode → Bool
  | PNode.text _ => true
  | PNode.elem tag _ content =>
    !decide (tag = some "yield") &&
      (match content with
       | none => true
       | some cs => noYieldList cs)

/-- No node reachable from this array has tag `"yield"`. -/
def noYieldList : List PNode → Bool
  | [] => true
  | n :: rest => noYieldNode n && noYieldList rest

end

/-- The content that the three-way rewrite leaves on a placeholder node. -/
def yieldResolvedContent (yields : SlotMap) (attrs : List (String × AttrVal))
    (content : Option (List PNode)) : Option (List PNode) :=
  match bindingOf yields attrs with
  | some c => some c
  | none => if isOptional attrs then some [] else content

theorem resolveYieldStep_eq' (yields : SlotMap) (attrs : List (String × AttrVal))
    (content : Option (List PNode)) :
    resolveYieldStep yields attrs content =
      PNode.elem none [] (yieldResolvedContent yields attrs content) := by
  rw [resolveYieldStep_eq]
  rfl

theorem replaceYieldsNode_text (yields : SlotMap) (fuel : Nat) (s : String) :
    replaceYieldsNode yields fuel (PNode.text s) = some (PNode.text s) := by
  cases fuel <;> rfl

theorem replaceYieldsNode_notYield_none (yields : SlotMap) (fuel : Nat)
    (tag : Option String) (attrs : List (String × AttrVal))
    (h : ¬tag = some "yield") :
    replaceYieldsNode yields fuel (PNode.elem tag attrs none) =
      some (PNode.elem tag attrs none) := by
  cases fuel <;> simp [replaceYieldsNode, h]

theorem replaceYieldsNode_notYield_some (yields : SlotMap) (fuel : Nat)
    (tag : Option String) (attrs : List (String × AttrVal)) (cs : List PNode)
    (h : ¬tag = some "yield") :
    replaceYieldsNode yields fuel (PNode.elem tag attrs (some cs)) =
      match fuel with
      | 0 => none
      | fuel' + 1 =>
        (seqOpt (fun m => replaceYieldsNode yields fuel' m) cs).map
          (fun cs' => PNode.elem tag attrs (some cs')) := by
  cases fuel <;> simp [replaceYieldsNode, h]

theorem replaceYieldsNode_yield (yields : SlotMap) (fuel : Nat)
    (attrs : List (String × AttrVal)) (content : Option (List PNode)) :
    replaceYieldsNode yields fuel (PNode.elem (some "yield") attrs content) =
      match yieldResolvedContent yields attrs content with
      | none => some (PNode.elem none [] none)
      | some cs =>
        match fuel with
        | 0 => none
        | fuel' + 1 =>
          (seqOpt (fun m => replaceYieldsNode yields fuel' m) cs).map
            (fun cs' => PNode.elem none [] (some cs')) := by
  cases hyc : yieldResolvedContent yields attrs content with
  | none =>
    cases fuel <;> simp [replaceYieldsNode, resolveYieldStep_eq', hyc]
  | some cs =>
    cases fuel <;> simp [replaceYieldsNode, resolveYieldStep_eq', hyc]

theorem seqOpt_nil (f : PNode → Option PNode) : seqOpt f [] = some [] := rfl

theorem seqOpt_cons_eq_some {f : PNode → Option PNode} {n : PNode}
    {rest r : List PNode} (h : seqOpt f (n :: rest) = some r) :
    ∃ n' rest', f n = some n' ∧ seqOpt f rest = some rest' ∧ r = n' :: rest' := by
  cases hn : f n with
  | none => simp [seqOpt, hn] at h
  | some n' =>
    cases hrest : seqOpt f rest with
    | none => simp [seqOpt, hn, hrest] at h
    | some rest' =>
      refine ⟨n', rest', rfl, rfl, ?_⟩
      simp [seqOpt, hn, hrest] at h
      exact h.symm

/-- Preservation core: a completed run of the substitution pass leaves no
node tagged `"yield"` anywhere in its output (every visited `yield` node is
rewritten to a transparent one and the walk descends into every present
content array, including freshly spliced ones). -/
theorem replaceYields_no_yield_core :
    ∀ fuel : Nat,
      (∀ (yields : SlotMap) (n r : PNode),
        replaceYieldsNode yields fuel n = some r → noYieldNode r = true) ∧
      (∀ (yields : SlotMap) (cs r : List PNode),
        seqOpt (fun m => replaceYieldsNode yields fuel m) cs = some r →
          noYieldList r = true) := by
  intro fuel
  induction fuel using Nat.strong_induction_on with
  | _ fuel ih =>
    have hnode : ∀ (yields : SlotMap) (n r : PNode),
        replaceYieldsNode yields fuel n = some r → noYieldNode r = true := by
      intro yields n r h
      cases n with
      | text s =>
        rw [replaceYieldsNode_text] at h
        cases h
        rfl
      | elem tag attrs content =>
        by_cases htag : tag = some "yield"
        · subst htag
          rw [replaceYieldsNode_yield] at h
          cases hyc : yieldResolvedContent yields attrs content with
          | none =>
            rw [hyc] at h
            cases h
            rfl
          | some cs =>
            rw [hyc] at h
            cases fuel with
            | zero => cases h
            | succ fuel' =>
              simp only [Option.map_eq_some'] at h
              obtain ⟨cs', hcs', hr⟩ := h
              subst hr
              have hno := (ih fuel' (Nat.lt_succ_self fuel')).2 yields cs cs' hcs'
              simp [noYieldNode, hno]
        · cases content with
          | none =>
            rw [replaceYieldsNode_notYield_none yields fuel tag attrs htag] at h
            cases h
            simp [noYieldNode, htag]
          | some cs =>
            rw [replaceYieldsNode_notYield_some yields fuel tag attrs cs htag] at h
            cases fuel with
            | zero => cases h
            | succ fuel' =>
              simp only [Option.map_eq_some'] at h
              obtain ⟨cs', hcs', hr⟩ := h
              subst hr
              have hno := (ih fuel' (Nat.lt_succ_self fuel')).2 yields cs cs' hcs'
              simp [noYieldNode, htag, hno]
    refine ⟨hnode, ?_⟩
    intro yields cs
    induction cs with
    | nil =>
      intro r h
      rw [seqOpt_nil] at h
      cases h
      rfl
    | cons n rest ihrest =>
      intro r h
      obtain ⟨n', rest', hn, hrest, hr⟩ := seqOpt_cons_eq_some h
      subst hr
      have h₁ := hnode yields n n' hn
      have h₂ := ihrest rest' hrest
      simp [noYieldList, h₁, h₂]

/-- C9: after the slot substitution pass returns on any tree and any slot
map, no node reachable through nested content arrays has tag `"yield"`;
and in particular a `yield` node with no `name` attribute (or an empty
string name) and no `optional` attribute is still rewritten: its tag
becomes the transparent sentinel, its attrs are cleared, and its own
content is kept. -/
theorem replaceYields_eliminates_yields :
    (∀ (yields : SlotMap) (fuel : Nat) (tree r : List PNode),
      replaceYields yields fuel tree = some r → noYieldList r = true) ∧
    (∀ (yields : SlotMap) (attrs : List (String × AttrVal))
        (content : Option (List PNode)),
      (alookup "name" attrs = none ∨ alookup "name" attrs = some (AttrVal.str "")) →
      alookup "optional" attrs = none →
      resolveYieldStep yields attrs content = PNode.elem none [] content) := by
  constructor
  · intro yields fuel tree r h
    exact (replaceYields_no_yield_core fuel).2 yields tree r h
  · intro yields attrs content hname hopt
    rw [resolveYieldStep_eq']
    have hkey : nameKey (alookup "name" attrs) = none := by
      rcases hname with h | h <;> simp [h, nameKey]
    have hoptional : isOptional attrs = false := by
      simp [isOptional, hopt]
    simp [yieldResolvedContent, bindingOf, hkey, hoptional]

theorem replaceYields_eliminates_yields_witness :
    noYieldList [PNode.elem none [] (some [PNode.text "bound"]),
      PNode.elem none [] (some [])] = true ∧
    resolveYieldStep [("x", [PNode.text "bound"])] [("class", AttrVal.str "c")]
        (some [PNode.text "D"]) =
      PNode.elem none [] (some [PNode.text "D"]) :=
  ⟨replaceYields_eliminates_yields.1 [("x", [PNode.text "bound"])] 3
      [PNode.elem (some "yield") [("name", AttrVal.str "x")] (some [PNode.text "D"]),
       PNode.elem (some "yield") [("name", AttrVal.str "y"), ("optional", AttrVal.boolTrue)]
         (some [PNode.text "E"])]
      [PNode.elem none [] (some [PNode.text "bound"]), PNode.elem none [] (some [])] rfl,
   replaceYields_eliminates_yields.2 [("x", [PNode.text "bound"])]
      [("class", AttrVal.str "c")] (some [PNode.text "D"]) (Or.inl rfl) rfl⟩

/-- C10: when the pass replaces a placeholder with caller-bound content,
the walk descends into the freshly spliced content and resolves it against
the same slot map, so the returned node wraps the recursively processed
bound content and no `yield` node survives inside it. -/
theorem replaceYields_descends_into_spliced (yields : SlotMap)
    (attrs : List (String × AttrVal)) (content : Option (List PNode))
    (k : String) (bound : List PNode) (fuel : Nat) (r : PNode) :
    nameKey (alookup "name" attrs) = some k →
    alookup k yields = some bound →
    replaceYieldsNode yields (fuel + 1) (PNode.elem (some "yield") attrs content) =
      some r →
    ∃ bound', replaceYieldsArr yields fuel bound = some bound' ∧
      r = PNode.elem none [] (some bound') ∧ noYieldList bound' = true := by
  intro hname hbound h
  have hyc : yieldResolvedContent yields attrs content = some bound := by
    simp [yieldResolvedContent, bindingOf, hname, hbound]
  rw [replaceYieldsNode_yield, hyc] at h
  simp only [Option.map_eq_some'] at h
  obtain ⟨bound', hb, hr⟩ := h
  refine ⟨bound', hb, hr.symm, ?_⟩
  exact (replaceYields_no_yield_core fuel).2 yields bound bound' hb

theorem replaceYields_descends_into_spliced_witness :
    ∃ bound',
      replaceYieldsArr
          [("x", [PNode.elem (some "yield") [("name", AttrVal.str "y")]
            (some [PNode.text "D"])])] 2
          [PNode.elem (some "yield") [("name", AttrVal.str "y")]
            (some [PNode.text "D"])] = some bound' ∧
      PNode.elem none [] (some [PNode.elem none [] (some [PNode.text "D"])]) =
        PNode.elem none [] (some bound') ∧
      noYieldList bound' = true :=
  replaceYields_descends_into_spliced
    [("x", [PNode.elem (some "yield") [("name", AttrVal.str "y")]
      (some [PNode.text "D"])])]
    [("name", AttrVal.str "x")] (some [PNode.text "default"]) "x"
    [PNode.elem (some "yield") [("name", AttrVal.str "y")] (some [PNode.text "D"])]
    2
    (PNode.elem none [] (some [PNode.elem none [] (some [PNode.text "D"])]))
    rfl rfl rfl

/-- C1: the three-way rule the substitution pass applies, in place, to
every placeholder node it encounters at any depth: a placeholder whose
(truthy) name is bound in the slot map becomes a transparent node carrying
the bound sequence; an unbound one whose `optional` attribute is set (bare
presence, `"true"`, or the empty-string value) becomes a transparent node
with empty content; any other one becomes a transparent node keeping its
own default content.  The last conjunct shows the pass rewrites every
`yield` node it visits through exactly this step before descending. -/
theorem yield_resolution_rules (yields : SlotMap)
    (attrs : List (String × AttrVal)) (content : Option (List PNode)) :
    (∀ k bound, nameKey (alookup "name" attrs) = some k →
      alookup k yields = some bound →
      resolveYieldStep yields attrs content = PNode.elem none [] (some bound)) ∧
    (∀ v, bindingOf yields attrs = none →
      alookup "optional" attrs = some v →
      (v = AttrVal.boolTrue ∨ v = AttrVal.str "true" ∨ v = AttrVal.str "") →
      resolveYieldStep yields attrs content = PNode.elem none [] (some [])) ∧
    (bindingOf yields attrs = none → isOptional attrs = false →
      resolveYieldStep yields attrs content = PNode.elem none [] content) ∧
    (∀ fuel, replaceYieldsNode yields (fuel + 1)
        (PNode.elem (some "yield") attrs content) =
      match resolveYieldStep yields attrs content with
      | PNode.elem t a (some cs) =>
        (seqOpt (fun m => replaceYieldsNode yields fuel m) cs).map
          (fun cs' => PNode.elem t a (some cs'))
      | st => some st) := by
  refine ⟨?_, ?_, ?_, ?_⟩
  · intro k bound hname hbound
    rw [resolveYieldStep_eq']
    simp [yieldResolvedContent, bindingOf, hname, hbound]
  · intro v hbind hopt hv
    rw [resolveYieldStep_eq']
    have : isOptional attrs = true := by
      rcases hv with h | h | h <;> subst h <;> simp [isOptional, hopt]
    simp [yieldResolvedContent, hbind, this]
  · intro hbind hopt
    rw [resolveYieldStep_eq']
    simp [yieldResolvedContent, hbind, hopt]
  · intro fuel
    rw [replaceYieldsNode_yield, resolveYieldStep_eq']
    cases hyc : yieldResolvedContent yields attrs content with
    | none => rfl
    | some cs => rfl

theorem yield_resolution_rules_witness :
    resolveYieldStep [("x", [PNode.text "B"])] [("name", AttrVal.str "x")]
        (some [PNode.text "D"]) = PNode.elem none [] (some [PNode.text "B"]) ∧
    resolveYieldStep [] [("name", AttrVal.str "z"), ("optional", AttrVal.str "")]
        (some [PNode.text "D"]) = PNode.elem none [] (some []) ∧
    resolveYieldStep [] [("name", AttrVal.str "z")] (some [PNode.text "D"]) =
      PNode.elem none [] (some [PNode.text "D"]) :=
  ⟨(yield_resolution_rules [("x", [PNode.text "B"])] [("name", AttrVal.str "x")]
      (some [PNode.text "D"])).1 "x" [PNode.text "B"] rfl rfl,
   (yield_resolution_rules [] [("name", AttrVal.str "z"), ("optional", AttrVal.str "")]
      (some [PNode.text "D"])).2.1 (AttrVal.str "") rfl rfl (Or.inr (Or.inr rfl)),
   (yield_resolution_rules [] [("name", AttrVal.str "z")]
      (some [PNode.text "D"])).2.2.1 rfl rfl⟩

/-! ## Driver path machinery

Re-indexing facts: collected paths of a tail shift by one when a node is
prepended, and the collected-nodes loop commutes with that shift. -/

/-- Shift the leading child index of a path by one. -/
def bump : List Nat → List Nat
  | [] => []
  | i :: q => (i + 1) :: q

theorem getAt_cons_bump (n : PNode) (tree : List PNode) (p : List Nat) :
    getAt (n :: tree) (bump p) = getAt tree p := by
  cases p with
  | nil => rfl
  | cons i q =>
    cases q with
    | nil => simp [bump, getAt]
    | cons j q' => simp [bump, getAt]

theorem setAt_cons_bump (n : PNode) (tree : List PNode) (p : List Nat)
    (x : PNode) :
    setAt (n :: tree) (bump p) x = n :: setAt tree p x := by
  cases p with
  | nil => rfl
  | cons i q =>
    cases q with
    | nil => simp [bump, setAt]
    | cons j q' =>
      show setAt (n :: tree) ((i + 1) :: j :: q') x = n :: setAt tree (i :: j :: q') x
      simp only [setAt, List.get?_cons_succ]
      cases hg : tree.get? i with
      | none => rfl
      | some m =>
        cases m with
        | text s => rfl
        | elem t a c =>
          cases c with
          | none => rfl
          | some cs => simp

theorem incPathsArrFrom_succ (t : List PNode) :
    ∀ i, incPathsArrFrom (i + 1) t = (incPathsArrFrom i t).map bump := by
  induction t with
  | nil => intro i; rfl
  | cons n rest ih =>
    intro i
    simp only [incPathsArrFrom, List.map_append, List.map_map, ih (i + 1)]
    rfl

theorem findIncludePaths_cons (n : PNode) (rest : List PNode) :
    findIncludePaths (n :: rest) =
      (incPathsNode n).map (fun p => 0 :: p) ++ (findIncludePaths rest).map bump := by
  show incPathsArrFrom 0 (n :: rest) = _
  simp only [incPathsArrFrom]
  rw [incPathsArrFrom_succ rest 0]
  rfl

theorem processPathsF_cons_none (pi : PNode → Except Fail (PNode × List LogEntry))
    {p : List Nat} {tree : List PNode} (rest : List (List Nat))
    (hg : getAt tree p = none) :
    processPathsF pi (p :: rest) tree = processPathsF pi rest tree := by
  simp only [processPathsF, hg]

theorem processPathsF_cons_some_error
    (pi : PNode → Except Fail (PNode × List LogEntry))
    {p : List Nat} {tree : List PNode} {m : PNode} (rest : List (List Nat))
    (hg : getAt tree p = some m) {e : Fail} (hpi : pi m = Except.error e) :
    processPathsF pi (p :: rest) tree = Except.error e := by
  simp only [processPathsF, hg, hpi]
  rfl

theorem processPathsF_cons_some_ok
    (pi : PNode → Except Fail (PNode × List LogEntry))
    {p : List Nat} {tree : List PNode} {m : PNode} (rest : List (List Nat))
    (hg : getAt tree p = some m) {m' : PNode} {l₁ : List LogEntry}
    (hpi : pi m = Except.ok (m', l₁)) :
    processPathsF pi (p :: rest) tree =
      match processPathsF pi rest (setAt tree p m') with
      | Except.error e => Except.error e
      | Except.ok (t, l₂) => Except.ok (t, l₁ ++ l₂) := by
  simp only [processPathsF, hg, hpi]
  show Except.bind (processPathsF pi rest (setAt tree p m'))
      (fun r₂ => Except.ok (r₂.1, l₁ ++ r₂.2)) = _
  cases processPathsF pi rest (setAt tree p m') with
  | error e => rfl
  | ok pr₂ =>
    obtain ⟨t, l₂⟩ := pr₂
    rfl

theorem processPathsF_bump (pi : PNode → Except Fail (PNode × List LogEntry))
    (ps : List (List Nat)) (n : PNode) :
    ∀ tree, processPathsF pi (ps.map bump) (n :: tree) =
      match processPathsF pi ps tree with
      | Except.ok (t, l) => Except.ok (n :: t, l)
      | Except.error e => Except.error e := by
  induction ps with
  | nil => intro tree; rfl
  | cons p rest ih =>
    intro tree
    rw [List.map_cons]
    cases hg : getAt tree p with
    | none =>
      have h₁ : getAt (n :: tree) (bump p) = none := by
        rw [getAt_cons_bump]; exact hg
      rw [processPathsF_cons_none pi (rest.map bump) h₁,
        processPathsF_cons_none pi rest hg]
      exact ih tree
    | some m =>
      have h₁ : getAt (n :: tree) (bump p) = some m := by
        rw [getAt_cons_bump]; exact hg
      cases hpi : pi m with
      | error e =>
        rw [processPathsF_cons_some_error pi (rest.map bump) h₁ hpi,
          processPathsF_cons_some_error pi rest hg hpi]
      | ok pr =>
        obtain ⟨m', l₁⟩ := pr
        rw [processPathsF_cons_some_ok pi (rest.map bump) h₁ hpi,
          processPathsF_cons_some_ok pi rest hg hpi, setAt_cons_bump,
          ih (setAt tree p m')]
        cases hrest : processPathsF pi rest (setAt tree p m') with
        | error e => rfl
        | ok pr₂ =>
          obtain ⟨t, l₂⟩ := pr₂
          rfl

/-! ## Per-node behaviour of `processInclude` -/

/-- The validity test the source applies to `attrs.src` (`typeof src ===
'string' && src.length > 0`, lines 57–58 and 82). -/
def srcValid (attrs : List (String × AttrVal)) : Bool :=
  match alookup "src" attrs with
  | some (AttrVal.str s) => s ≠ ""
  | _ => false

theorem isValidInclude_eq (tag : Option String) (attrs : List (String × AttrVal))
    (content : Option (List PNode)) :
    isValidInclude (PNode.elem tag attrs content) =
      (decide (tag = some "include") && srcValid attrs) := by
  simp only [isValidInclude, srcValid]

theorem processInclude_skip (env : Env) (fuel : Nat) (tag : Option String)
    (attrs : List (String × AttrVal)) (content : Option (List PNode))
    (h : srcValid attrs = false) :
    processInclude env fuel (PNode.elem tag attrs content) =
      Except.ok (PNode.elem tag attrs content, [LogEntry.warnInvalidSrc]) := by
  cases hsrc : alookup "src" attrs with
  | none => simp [processInclude, hsrc]
  | some v =>
    cases v with
    | boolTrue => simp [processInclude, hsrc]
    | str s =>
      have hs : s = "" := by
        simp [srcValid, hsrc] at h
        exact h
      simp [processInclude, hsrc, hs]

theorem processInclude_readFail (env : Env) (fuel : Nat) (tag : Option String)
    (attrs : List (String × AttrVal)) (content : Option (List PNode))
    (src : String) (hsrc : alookup "src" attrs = some (AttrVal.str src))
    (hne : src ≠ "") (hread : env.readFile src = none) :
    processInclude env fuel (PNode.elem tag attrs content) =
      Except.ok (PNode.elem tag attrs content, [LogEntry.errorReadFail src]) := by
  simp [processInclude, hsrc, hne, hread]

theorem processInclude_parseFail (env : Env) (fuel : Nat) (tag : Option String)
    (attrs : List (String × AttrVal)) (content : Option (List PNode))
    (src raw : String) (hsrc : alookup "src" attrs = some (AttrVal.str src))
    (hne : src ≠ "") (hread : env.readFile src = some raw)
    (hext : extractYields (content.getD []) = [])
    (hparse : env.parse (replaceYieldsInAttributes raw []) = none) :
    processInclude env (fuel + 1) (PNode.elem tag attrs content) =
      Except.error Fail.parseFail := by
  simp only [processInclude, hsrc, hne, hread, hext, processSlotsF,
    if_neg hne]
  show (match env.parse (replaceYieldsInAttributes raw ([] : SlotMap)) with
        | none => Except.error Fail.parseFail
        | some includedTree =>
          match replaceYieldsArr [] fuel includedTree with
          | none => Except.error Fail.outOfFuel
          | some substituted =>
            Except.bind (processTreeF (fun m => processInclude env fuel m) substituted)
              (fun r =>
                Except.ok (PNode.elem none [] (some r.1),
                  ([] : List LogEntry) ++ r.2))) = Except.error Fail.parseFail
  rw [hparse]

/-- C2: an include directive whose fragment file cannot be read produces
exactly one logged error, leaves the node entirely unchanged (tag still
`"include"`, attrs and content untouched), raises nothing, and the driver's
loop then processes the remaining collected include nodes exactly as it
would have without the failing one. -/
theorem read_failure_nonfatal (env : Env) (fuel : Nat)
    (attrs : List (String × AttrVal)) (content : Option (List PNode))
    (src : String)
    (hsrc : alookup "src" attrs = some (AttrVal.str src)) (hne : src ≠ "")
    (hread : env.readFile src = none) :
    processInclude env fuel (PNode.elem (some "include") attrs content) =
      Except.ok (PNode.elem (some "include") attrs content,
        [LogEntry.errorReadFail src]) ∧
    ∀ rest : List PNode,
      processTree env fuel (PNode.elem (some "include") attrs none :: rest) =
        match processTree env fuel rest with
        | Except.ok (t, logs) =>
            Except.ok (PNode.elem (some "include") attrs none :: t,
              LogEntry.errorReadFail src :: logs)
        | Except.error e => Except.error e := by
  constructor
  · exact processInclude_readFail env fuel (some "include") attrs content src
      hsrc hne hread
  · intro rest
    have hvalid : isValidInclude (PNode.elem (some "include") attrs none) = true := by
      simp [isValidInclude, hsrc, hne]
    have hpn : incPathsNode (PNode.elem (some "include") attrs none) = [[]] := by
      simp [incPathsNode, hvalid]
    show processPathsF (fun m => processInclude env fuel m)
        (findIncludePaths (PNode.elem (some "include") attrs none :: rest))
        (PNode.elem (some "include") attrs none :: rest) = _
    rw [findIncludePaths_cons, hpn]
    have hg : getAt (PNode.elem (some "include") attrs none :: rest) [0] =
        some (PNode.elem (some "include") attrs none) := rfl
    have hpi : (fun m => processInclude env fuel m)
        (PNode.elem (some "include") attrs none) =
        Except.ok (PNode.elem (some "include") attrs none,
          [LogEntry.errorReadFail src]) :=
      processInclude_readFail env fuel (some "include") attrs none src
        hsrc hne hread
    rw [List.map_cons, List.map_nil, List.singleton_append,
      processPathsF_cons_some_ok (fun m => processInclude env fuel m)
        ((findIncludePaths rest).map bump) hg hpi]
    have hset : setAt (PNode.elem (some "include") attrs none :: rest) [0]
        (PNode.elem (some "include") attrs none) =
        PNode.elem (some "include") attrs none :: rest := rfl
    rw [hset, processPathsF_bump (fun m => processInclude env fuel m)
      (findIncludePaths rest) (PNode.elem (some "include") attrs none) rest]
    show (match
        match processTree env fuel rest with
        | Except.ok (t, l) =>
            Except.ok (PNode.elem (some "include") attrs none :: t, l)
        | Except.error e => Except.error e with
      | Except.error e => Except.error e
      | Except.ok (t, l₂) =>
          Except.ok (t, [LogEntry.errorReadFail src] ++ l₂)) = _
    cases processTree env fuel rest with
    | error e => rfl
    | ok pr =>
      obtain ⟨t, l⟩ := pr
      rfl

theorem read_failure_nonfatal_witness :
    processInclude ⟨fun _ => none, fun _ => none⟩ 4
        (PNode.elem (some "include") [("src", AttrVal.str "missing.html")]
          (some [PNode.text "child"])) =
      Except.ok (PNode.elem (some "include") [("src", AttrVal.str "missing.html")]
          (some [PNode.text "child"]),
        [LogEntry.errorReadFail "missing.html"]) ∧
    processTree ⟨fun _ => none, fun _ => none⟩ 4
        [PNode.elem (some "include") [("src", AttrVal.str "missing.html")] none,
         PNode.text "tail"] =
      Except.ok ([PNode.elem (some "include")
          [("src", AttrVal.str "missing.html")] none, PNode.text "tail"],
        [LogEntry.errorReadFail "missing.html"]) := by
  have h := read_failure_nonfatal ⟨fun _ => none, fun _ => none⟩ 4
    [("src", AttrVal.str "missing.html")] (some [PNode.text "child"])
    "missing.html" rfl (by decide) rfl
  refine ⟨h.1, ?_⟩
  rw [h.2 [PNode.text "tail"]]
  rfl

/-! ## Claims C6 and C7: idempotent re-entry and invalid directives -/

mutual

/-- A fully expanded node: no reachable node (through nested content
arrays) is still tagged `"include"` or `"yield"`. -/
def noDirectiveNode : PNode → Bool
  | PNode.text _ => true
  | PNode.elem tag _ content =>
    !decide (tag = some "include") && !decide (tag = some "yield") &&
      (match content with
       | none => true
       | some cs => noDirectiveList cs)

/-- A fully expanded tree. -/
def noDirectiveList : List PNode → Bool
  | [] => true
  | n :: rest => noDirectiveNode n && noDirectiveList rest

end

mutual

theorem noDirective_incPathsNode (n : PNode) (h : noDirectiveNode n = true) :
    incPathsNode n = [] := by
  cases n with
  | text s => rfl
  | elem tag attrs content =>
    cases content with
    | none =>
      have hinc : ¬tag = some "include" := by
        simp only [noDirectiveNode, Bool.and_eq_true, Bool.not_eq_true',
          decide_eq_false_iff_not] at h
        exact h.1.1
      have hvalid : isValidInclude (PNode.elem tag attrs none) = false := by
        simp [isValidInclude, hinc]
      simp [incPathsNode, hvalid]
    | some cs =>
      have hinc : ¬tag = some "include" := by
        simp only [noDirectiveNode, Bool.and_eq_true, Bool.not_eq_true',
          decide_eq_false_iff_not] at h
        exact h.1.1
      have hcs : noDirectiveList cs = true := by
        simp only [noDirectiveNode, Bool.and_eq_true] at h
        exact h.2
      have hvalid : isValidInclude (PNode.elem tag attrs (some cs)) = false := by
        simp [isValidInclude, hinc]
      simp [incPathsNode, hvalid, noDirective_incPathsArr cs 0 hcs]

theorem noDirective_incPathsArr (cs : List PNode) (i : Nat)
    (h : noDirectiveList cs = true) : incPathsArrFrom i cs = [] := by
  cases cs with
  | nil => rfl
  | cons n rest =>
    simp only [noDirectiveList, Bool.and_eq_true] at h
    simp [incPathsArrFrom, noDirective_incPathsNode n h.1,
      noDirective_incPathsArr rest (i + 1) h.2]

end

/-- C6: re-running the expansion on an already fully expanded tree (no
include or placeholder tag anywhere) mutates nothing, logs nothing and does
not crash; and an already-cleared collected node (attrs emptied by an
earlier recursive expansion) is skipped by `processInclude` with a warning,
unchanged, never expanded a second time. -/
theorem idempotent_reentry :
    (∀ (env : Env) (fuel : Nat) (tree : List PNode),
      noDirectiveList tree = true →
      processTree env fuel tree = Except.ok (tree, [])) ∧
    (∀ (env : Env) (fuel : Nat) (tag : Option String)
        (content : Option (List PNode)),
      processInclude env fuel (PNode.elem tag [] content) =
        Except.ok (PNode.elem tag [] content, [LogEntry.warnInvalidSrc])) := by
  constructor
  · intro env fuel tree h
    show processPathsF (fun m => processInclude env fuel m)
      (findIncludePaths tree) tree = _
    rw [show findIncludePaths tree = [] from noDirective_incPathsArr tree 0 h]
    rfl
  · intro env fuel tag content
    exact processInclude_skip env fuel tag [] content rfl

theorem idempotent_reentry_witness :
    processTree ⟨fun _ => some "x", fun _ => none⟩ 2
        [PNode.elem none [] (some [PNode.elem (some "div") [] (some [PNode.text "t"])])] =
      Except.ok ([PNode.elem none []
          (some [PNode.elem (some "div") [] (some [PNode.text "t"])])], []) ∧
    processInclude ⟨fun _ => some "x", fun _ => none⟩ 2
        (PNode.elem none [] (some [])) =
      Except.ok (PNode.elem none [] (some []), [LogEntry.warnInvalidSrc]) :=
  ⟨idempotent_reentry.1 ⟨fun _ => some "x", fun _ => none⟩ 2
      [PNode.elem none [] (some [PNode.elem (some "div") [] (some [PNode.text "t"])])]
      rfl,
   idempotent_reentry.2 ⟨fun _ => some "x", fun _ => none⟩ 2 none (some [])⟩

/-- C7 counterexample: an include node whose `src` is missing is skipped and
left unresolved, but the expansion logs *nothing* — the claim's "logs a
warning" fails, because `findIncludes` never collects a directive with a
missing/empty/non-string `src`, and the warning in `processInclude` is only
reachable for nodes that were collected (then invalidated) earlier. -/
theorem invalid_src_no_warning_counterexample :
    processTree ⟨fun _ => none, fun _ => none⟩ 1
        [PNode.elem (some "include") [] (some [])] =
      Except.ok ([PNode.elem (some "include") [] (some [])],
        ([] : List LogEntry)) := rfl

/-- C7 amended: a node with tag `"include"` whose `src` attribute is
missing, empty, or not a string is never collected, the expansion leaves it
unresolved in the tree, and the failure is non-fatal — but no warning is
logged for it (the source's warning only fires for a node that was
collected with a valid `src` and whose attrs were cleared before its
turn). -/
theorem invalid_src_skipped_silently :
    (∀ (tag : Option String) (attrs : List (String × AttrVal))
        (content : Option (List PNode)),
      srcValid attrs = false →
      isValidInclude (PNode.elem tag attrs content) = false) ∧
    (∀ (env : Env) (fuel : Nat) (attrs : List (String × AttrVal))
        (rest : List PNode),
      srcValid attrs = false →
      processTree env fuel (PNode.elem (some "include") attrs none :: rest) =
        match processTree env fuel rest with
        | Except.ok (t, logs) =>
            Except.ok (PNode.elem (some "include") attrs none :: t, logs)
        | Except.error e => Except.error e) := by
  constructor
  · intro tag attrs content h
    rw [isValidInclude_eq, h]
    simp
  · intro env fuel attrs rest h
    have hvalid : isValidInclude (PNode.elem (some "include") attrs none) = false := by
      rw [isValidInclude_eq, h]
      simp
    have hpn : incPathsNode (PNode.elem (some "include") attrs none) = [] := by
      simp [incPathsNode, hvalid]
    show processPathsF (fun m => processInclude env fuel m)
        (findIncludePaths (PNode.elem (some "include") attrs none :: rest))
        (PNode.elem (some "include") attrs none :: rest) = _
    rw [findIncludePaths_cons, hpn, List.map_nil, List.nil_append,
      processPathsF_bump (fun m => processInclude env fuel m)
        (findIncludePaths rest) (PNode.elem (some "include") attrs none) rest]
    rfl

theorem invalid_src_skipped_silently_witness :
    isValidInclude (PNode.elem (some "include") [("src", AttrVal.boolTrue)] none) =
      false ∧
    processTree ⟨fun _ => none, fun _ => none⟩ 3
        [PNode.elem (some "include") [] none, PNode.text "t"] =
      Except.ok ([PNode.elem (some "include") [] none, PNode.text "t"], []) := by
  refine ⟨invalid_src_skipped_silently.1 (some "include")
    [("src", AttrVal.boolTrue)] none rfl, ?_⟩
  rw [invalid_src_skipped_silently.2 ⟨fun _ => none, fun _ => none⟩ 3 []
    [PNode.text "t"] rfl]
  rfl

/-! ## Claim C8: parse failures are fatal, read failures are not -/

/-- C8: a parse failure of the rewritten fragment source is not handled at
its point of occurrence: `processInclude` surfaces it as an error, the
driver's loop propagates it out of the expansion (aborting the document),
while a read failure at the same spot yields a normal, non-raising
result. -/
theorem parse_failure_propagates :
    (∀ (env : Env) (fuel : Nat) (attrs : List (String × AttrVal))
        (src raw : String),
      alookup "src" attrs = some (AttrVal.str src) → src ≠ "" →
      env.readFile src = some raw →
      env.parse (replaceYieldsInAttributes raw []) = none →
      processInclude env (fuel + 1) (PNode.elem (some "include") attrs none) =
        Except.error Fail.parseFail) ∧
    (∀ (env : Env) (fuel : Nat) (attrs : List (String × AttrVal)) (e : Fail),
      isValidInclude (PNode.elem (some "include") attrs none) = true →
      processInclude env fuel (PNode.elem (some "include") attrs none) =
        Except.error e →
      processTree env fuel [PNode.elem (some "include") attrs none] =
        Except.error e) ∧
    (∀ (env : Env) (fuel : Nat) (attrs : List (String × AttrVal)) (src : String),
      alookup "src" attrs = some (AttrVal.str src) → src ≠ "" →
      env.readFile src = none →
      processInclude env fuel (PNode.elem (some "include") attrs none) =
        Except.ok (PNode.elem (some "include") attrs none,
          [LogEntry.errorReadFail src])) := by
  refine ⟨?_, ?_, ?_⟩
  · intro env fuel attrs src raw hsrc hne hread hparse
    exact processInclude_parseFail env fuel (some "include") attrs none src raw
      hsrc hne hread rfl hparse
  · intro env fuel attrs e hvalid herr
    have hpn : incPathsNode (PNode.elem (some "include") attrs none) = [[]] := by
      simp [incPathsNode, hvalid]
    show processPathsF (fun m => processInclude env fuel m)
        (findIncludePaths [PNode.elem (some "include") attrs none])
        [PNode.elem (some "include") attrs none] = _
    have hpaths : findIncludePaths [PNode.elem (some "include") attrs none] =
        [[0]] := by
      show incPathsArrFrom 0 [PNode.elem (some "include") attrs none] = [[0]]
      simp [incPathsArrFrom, hpn]
    rw [hpaths]
    have hg : getAt [PNode.elem (some "include") attrs none] [0] =
        some (PNode.elem (some "include") attrs none) := rfl
    exact processPathsF_cons_some_error (fun m => processInclude env fuel m)
      [] hg herr
  · intro env fuel attrs src hsrc hne hread
    exact processInclude_readFail env fuel (some "include") attrs none src
      hsrc hne hread

theorem parse_failure_propagates_witness :
    processInclude ⟨fun _ => some "raw", fun _ => none⟩ 1
        (PNode.elem (some "include") [("src", AttrVal.str "frag.html")] none) =
      Except.error Fail.parseFail ∧
    processTree ⟨fun _ => some "raw", fun _ => none⟩ 1
        [PNode.elem (some "include") [("src", AttrVal.str "frag.html")] none] =
      Except.error Fail.parseFail ∧
    processInclude ⟨fun _ => none, fun _ => none⟩ 1
        (PNode.elem (some "include") [("src", AttrVal.str "frag.html")] none) =
      Except.ok (PNode.elem (some "include")
          [("src", AttrVal.str "frag.html")] none,
        [LogEntry.errorReadFail "frag.html"]) := by
  have h₁ := parse_failure_propagates.1 ⟨fun _ => some "raw", fun _ => none⟩ 0
    [("src", AttrVal.str "frag.html")] "frag.html" "raw" rfl (by decide) rfl rfl
  refine ⟨h₁, ?_, ?_⟩
  · exact parse_failure_propagates.2.1 ⟨fun _ => some "raw", fun _ => none⟩ 1
      [("src", AttrVal.str "frag.html")] Fail.parseFail rfl h₁
  · exact parse_failure_propagates.2.2 ⟨fun _ => none, fun _ => none⟩ 1
      [("src", AttrVal.str "frag.html")] "frag.html" rfl (by decide) rfl

/-! ## Claim C5: non-slot children are discarded -/

/-- A direct child that contributes a slot binding: a node with tag
`"yield"` and a truthy `name`. -/
def isSlotChild : PNode → Bool
  | PNode.text _ => false
  | PNode.elem tag attrs _ =>
    decide (tag = some "yield") && (nameKey (alookup "name" attrs)).isSome

theorem extractStep_nonslot (acc : SlotMap) (x : PNode)
    (h : isSlotChild x = false) : extractStep acc x = acc := by
  cases x with
  | text s => rfl
  | elem tag attrs c =>
    by_cases htag : tag = some "yield"
    · cases hn : nameKey (alookup "name" attrs) with
      | some k =>
        exfalso
        simp [isSlotChild, htag, hn] at h
      | none => simp [extractStep, htag, hn]
    · simp [extractStep, htag]

theorem extractYields_ignore_nonslot (cs₁ cs₂ : List PNode) (x : PNode)
    (h : isSlotChild x = false) :
    extractYields (cs₁ ++ x :: cs₂) = extractYields (cs₁ ++ cs₂) := by
  rw [extractYields_eq_foldl, extractYields_eq_foldl, List.foldl_append,
    List.foldl_append, List.foldl_cons, extractStep_nonslot _ x h]

/-- C5: a direct child of an include directive that is not a `yield` node
with a truthy name (plain text, or any other element) has no effect on the
outcome of resolving the directive — processing the directive with or
without that child gives identical results (in particular, such a child is
absent from the resolved node's output content, which is built solely from
the loaded fragment and the extracted slot bindings). -/
theorem nonslot_children_discarded (env : Env) (fuel : Nat)
    (tag : Option String) (attrs : List (String × AttrVal))
    (cs₁ cs₂ : List PNode) (x : PNode) (src raw : String)
    (hx : isSlotChild x = false)
    (hsrc : alookup "src" attrs = some (AttrVal.str src)) (hne : src ≠ "")
    (hread : env.readFile src = some raw) :
    processInclude env fuel (PNode.elem tag attrs (some (cs₁ ++ x :: cs₂))) =
      processInclude env fuel (PNode.elem tag attrs (some (cs₁ ++ cs₂))) := by
  have hext := extractYields_ignore_nonslot cs₁ cs₂ x hx
  cases fuel with
  | zero => simp [processInclude, hsrc, hne, hread]
  | succ f => simp [processInclude, hsrc, hne, hread, hext]

theorem nonslot_children_discarded_witness :
    processInclude
        ⟨fun _ => some "<p></p>", fun _ => some [PNode.elem (some "p") [] (some [])]⟩ 2
        (PNode.elem (some "include") [("src", AttrVal.str "f.html")]
          (some ([] ++ PNode.text "junk" ::
            [PNode.elem (some "yield") [("name", AttrVal.str "x")]
              (some [PNode.text "B"])]))) =
      processInclude
        ⟨fun _ => some "<p></p>", fun _ => some [PNode.elem (some "p") [] (some [])]⟩ 2
        (PNode.elem (some "include") [("src", AttrVal.str "f.html")]
          (some ([] ++
            [PNode.elem (some "yield") [("name", AttrVal.str "x")]
              (some [PNode.text "B"])]))) :=
  nonslot_children_discarded
    ⟨fun _ => some "<p></p>", fun _ => some [PNode.elem (some "p") [] (some [])]⟩ 2
    (some "include") [("src", AttrVal.str "f.html")] []
    [PNode.elem (some "yield") [("name", AttrVal.str "x")] (some [PNode.text "B"])]
    (PNode.text "junk") "f.html" "<p></p>" rfl rfl (by decide) rfl

/-! ## Claim C4: the attribute-text rewriter

Step lemmas for the backtracking matcher, enough to run it symbolically
over an attribute whose value embeds one placeholder span. -/

theorem stripPrefix_append (cs s : List Char) :
    stripPrefix cs (cs ++ s) = some s := by
  induction cs with
  | nil => rfl
  | cons c cs' ih => simp [stripPrefix, ih]

theorem runLen_append_sat (p : Char → Bool) (xs t : List Char)
    (hsat : ∀ c ∈ xs, p c = true) :
    runLen p (xs ++ t) = xs.length + runLen p t := by
  induction xs with
  | nil => simp
  | cons c xs' ih =>
    have hc : p c = true := hsat c (List.mem_cons_self c xs')
    have hxs' : ∀ c ∈ xs', p c = true := fun d hd => hsat d (List.mem_cons_of_mem c hd)
    simp [runLen, hc, ih hxs']
    omega

theorem runLen_zero_of_head (p : Char → Bool) (c : Char) (t : List Char)
    (hc : p c = false) : runLen p (c :: t) = 0 := by
  simp [runLen, hc]

theorem tryCounts_top {α : Type} (f : Nat → Option α) (K : Nat) {r : α}
    (h : f K = some r) : tryCounts f K = some r := by
  cases K with
  | zero => exact h
  | succ K' => simp [tryCounts, h]

theorem tryCounts_eq_of_fail_above {α : Type} (f : Nat → Option α) :
    ∀ K k₀, k₀ ≤ K → (∀ j, k₀ < j → j ≤ K → f j = none) →
      tryCounts f K = tryCounts f k₀ := by
  intro K
  induction K with
  | zero =>
    intro k₀ hle _
    interval_cases k₀
    rfl
  | succ K' ihK =>
    intro k₀ hle hfail
    rcases Nat.eq_or_lt_of_le hle with heq | hlt
    · rw [heq]
    · have h₁ : f (K' + 1) = none := hfail (K' + 1) hlt (Nat.le_refl _)
      have h₂ : tryCounts f (K' + 1) = tryCounts f K' := by
        simp [tryCounts, h₁]
      rw [h₂]
      exact ihK k₀ (Nat.lt_succ_iff.mp hlt)
        (fun j hj₁ hj₂ => hfail j hj₁ (Nat.le_succ_of_le hj₂))

theorem matchAtoms_nil (s : List Char) (off : Nat) (marks : List (Nat × Nat)) :
    matchAtoms [] s off marks = some (off, marks) := rfl

theorem matchAtoms_mark_run {n : Nat} {rest : List Atom} (s : List Char)
    (off : Nat) (marks : List (Nat × Nat)) {r : Nat × List (Nat × Nat)}
    (h : matchAtoms rest s off ((n, off) :: marks) = some r) :
    matchAtoms (Atom.mark n :: rest) s off marks = some r := by
  simpa [matchAtoms] using h

theorem matchAtoms_lit_run {l : List Char} {rest : List Atom} (s : List Char)
    (off : Nat) (marks : List (Nat × Nat)) {r : Nat × List (Nat × Nat)}
    (h : matchAtoms rest s (off + l.length) marks = some r) :
    matchAtoms (Atom.lit l :: rest) (l ++ s) off marks = some r := by
  simpa [matchAtoms, stripPrefix_append] using h

theorem matchAtoms_lit_head_ne {c : Char} {cs : List Char} {rest : List Atom}
    {d : Char} (s : List Char) (off : Nat) (marks : List (Nat × Nat))
    (h : d ≠ c) :
    matchAtoms (Atom.lit (c :: cs) :: rest) (d :: s) off marks = none := by
  simp [matchAtoms, stripPrefix, Ne.symm h]

theorem matchAtoms_one_run {p : Char → Bool} {rest : List Atom} {c : Char}
    (s : List Char) (off : Nat) (marks : List (Nat × Nat))
    {r : Nat × List (Nat × Nat)} (hc : p c = true)
    (h : matchAtoms rest s (off + 1) marks = some r) :
    matchAtoms (Atom.one p :: rest) (c :: s) off marks = some r := by
  simpa [matchAtoms, hc] using h

theorem matchAtoms_star_run {p : Char → Bool} {rest : List Atom}
    (xs s' : List Char) (off : Nat) (marks : List (Nat × Nat))
    {r : Nat × List (Nat × Nat)}
    (hsat : ∀ c ∈ xs, p c = true) (hstop : runLen p s' = 0)
    (h : matchAtoms rest s' (off + xs.length) marks = some r) :
    matchAtoms (Atom.star p :: rest) (xs ++ s') off marks = some r := by
  have hrun : runLen p (xs ++ s') = xs.length := by
    rw [runLen_append_sat p xs s' hsat, hstop]
    omega
  simp only [matchAtoms, hrun]
  apply tryCounts_top
  rw [List.drop_left]
  exact h

theorem matchAtoms_plus_run {p : Char → Bool} {rest : List Atom}
    (xs s' : List Char) (off : Nat) (marks : List (Nat × Nat))
    {r : Nat × List (Nat × Nat)}
    (hne : xs ≠ []) (hsat : ∀ c ∈ xs, p c = true) (hstop : runLen p s' = 0)
    (h : matchAtoms rest s' (off + xs.length) marks = some r) :
    matchAtoms (Atom.plus p :: rest) (xs ++ s') off marks = some r := by
  obtain ⟨x, xs', rfl⟩ := List.exists_cons_of_ne_nil hne
  have hx : p x = true := hsat x (List.mem_cons_self x xs')
  have hxs' : ∀ c ∈ xs', p c = true := fun d hd => hsat d (List.mem_cons_of_mem x hd)
  have hrun : runLen p (xs' ++ s') = xs'.length := by
    rw [runLen_append_sat p xs' s' hxs', hstop]
    omega
  show matchAtoms (Atom.plus p :: rest) (x :: (xs' ++ s')) off marks = some r
  simp only [matchAtoms, hx, hrun, if_true]
  apply tryCounts_top
  rw [List.drop_left]
  have : off + 1 + xs'.length = off + (x :: xs').length := by
    simp [List.length_cons]
    omega
  rw [this]
  exact h

theorem matchAtoms_star_backtrack {p : Char → Bool} {rest : List Atom}
    (xs ys s' : List Char) (off : Nat) (marks : List (Nat × Nat))
    {r : Nat × List (Nat × Nat)}
    (hsatx : ∀ c ∈ xs, p c = true) (hsaty : ∀ c ∈ ys, p c = true)
    (hstop : runLen p s' = 0)
    (hfail : ∀ j, 0 < j → j ≤ ys.length →
      matchAtoms rest ((ys ++ s').drop j) (off + xs.length + j) marks = none)
    (h : matchAtoms rest (ys ++ s') (off + xs.length) marks = some r) :
    matchAtoms (Atom.star p :: rest) (xs ++ (ys ++ s')) off marks = some r := by
  have hrun : runLen p (xs ++ (ys ++ s')) = xs.length + ys.length := by
    rw [runLen_append_sat p xs _ hsatx, runLen_append_sat p ys s' hsaty, hstop]
    omega
  simp only [matchAtoms, hrun]
  have hdrop : ∀ j, (xs ++ (ys ++ s')).drop (xs.length + j) = (ys ++ s').drop j := by
    intro j
    induction xs with
    | nil => simp
    | cons c xs' ih =>
      simpa [List.length_cons, Nat.succ_add] using ih
  have hchain : tryCounts
      (fun k => matchAtoms rest ((xs ++ (ys ++ s')).drop k) (off + k) marks)
      (xs.length + ys.length) =
      tryCounts
        (fun k => matchAtoms rest ((xs ++ (ys ++ s')).drop k) (off + k) marks)
        xs.length := by
    apply tryCounts_eq_of_fail_above
    · omega
    · intro j hj₁ hj₂
      have hj : j = xs.length + (j - xs.length) := by omega
      rw [hj, hdrop (j - xs.length), ← Nat.add_assoc]
      exact hfail (j - xs.length) (by omega) (by omega)
  rw [hchain]
  apply tryCounts_top
  rw [List.drop_left]
  exact h
theorem attr_match (A P Nl E Dl PO : List Char)
    (hAne : A ≠ []) (hA : ∀ c ∈ A, isWordChar c = true)
    (hP : ∀ c ∈ P, c ≠ '"')
    (hNne : Nl ≠ []) (hN : ∀ c ∈ Nl, c ≠ '"' ∧ c ≠ '\'')
    (hE : ∀ c ∈ E, c ≠ '>')
    (hD : ∀ c ∈ Dl, c ≠ '<')
    (hPO : ∀ c ∈ PO, c ≠ '"') :
    matchAtoms attrPattern
      (A ++ ('=' :: '"' :: (P ++ ("<yield name=".toList ++ ('"' ::
        (Nl ++ ('"' :: (E ++ ('>' :: (Dl ++ ("</yield>".toList ++
          (PO ++ ['"'])))))))))))) 0 [] =
    some (A.length + 2 + P.length + 13 + Nl.length + 1 + E.length + 1
            + Dl.length + 8 + PO.length + 1,
      [(3, A.length + 2 + P.length + 13 + Nl.length + 1 + E.length + 1
            + Dl.length + 8 + PO.length),
       (7, A.length + 2 + P.length + 13 + Nl.length + 1 + E.length + 1
            + Dl.length),
       (6, A.length + 2 + P.length + 13 + Nl.length + 1 + E.length + 1),
       (5, A.length + 2 + P.length + 13 + Nl.length),
       (4, A.length + 2 + P.length + 13),
       (2, A.length + 2),
       (1, A.length),
       (0, 0)]) := by
  apply matchAtoms_mark_run
  apply matchAtoms_plus_run A _ 0 _ hAne hA
    (runLen_zero_of_head _ _ _ (by decide))
  apply matchAtoms_mark_run
  apply matchAtoms_lit_run (l := ['=', '"'])
  apply matchAtoms_mark_run
  apply matchAtoms_star_backtrack P ("<yield name=".toList)
  · exact fun c hc => by simp [bne_iff_ne]; exact hP c hc
  · decide
  · exact runLen_zero_of_head _ _ _ (by decide)
  · intro j hj1 hj2
    have h12 : ("<yield name=".toList).length = 12 := rfl
    rw [h12] at hj2
    interval_cases j <;> exact matchAtoms_lit_head_ne _ _ _ (by decide)
  apply matchAtoms_lit_run (l := "<yield".toList)
  apply matchAtoms_plus_run [' '] _ _ _ (by decide) (by decide)
    (runLen_zero_of_head _ _ _ (by decide))
  apply matchAtoms_lit_run (l := "name=".toList)
  apply matchAtoms_one_run _ _ _ (by decide)
  apply matchAtoms_mark_run
  apply matchAtoms_plus_run Nl _ _ _ hNne
    (fun c hc => by
      have := hN c hc
      simp [bne_iff_ne]
      exact this)
    (runLen_zero_of_head _ _ _ (by decide))
  apply matchAtoms_mark_run
  apply matchAtoms_one_run _ _ _ (by decide)
  apply matchAtoms_star_run E _ _ _
    (fun c hc => by simp [bne_iff_ne]; exact hE c hc)
    (runLen_zero_of_head _ _ _ (by decide))
  apply matchAtoms_lit_run (l := ['>'])
  apply matchAtoms_mark_run
  apply matchAtoms_star_run Dl _ _ _
    (fun c hc => by simp [bne_iff_ne]; exact hD c hc)
    (runLen_zero_of_head _ _ _ (by decide))
  apply matchAtoms_mark_run
  apply matchAtoms_lit_run (l := "</yield>".toList)
  apply matchAtoms_star_run PO _ _ _
    (fun c hc => by simp [bne_iff_ne]; exact hPO c hc)
    (runLen_zero_of_head _ _ _ (by decide))
  apply matchAtoms_mark_run
  apply matchAtoms_lit_run (l := ['"']) (s := [])
  rw [matchAtoms_nil]
  have h6 : ("<yield".toList).length = 6 := rfl
  have h5 : ("name=".toList).length = 5 := rfl
  have h8 : ("</yield>".toList).length = 8 := rfl
  simp only [Option.some.injEq, Prod.mk.injEq, List.cons.injEq,
    List.length_nil, List.length_cons, h6, h5, h8, true_and, and_true]
  omega

theorem capture_middle (x y z : List Char) (a b : Nat) (ha : a = x.length)
    (hb : b = x.length + y.length) :
    ((x ++ (y ++ z)).take b).drop a = y := by
  subst ha hb
  rw [List.take_append, List.take_left, List.drop_left]

theorem replaceAllGo_nil (pat : List Atom)
    (f : Nat → List Char → List (Nat × Nat) → List Char) (fuel pos : Nat) :
    replaceAllGo pat f fuel pos [] = [] := by
  cases fuel <;> rfl

theorem replaceAllGo_skip (pat : List Atom)
    (f : Nat → List Char → List (Nat × Nat) → List Char) (P : List Char)
    (hfail : ∀ c ∈ P, ∀ u, matchAtoms pat (c :: u) 0 [] = none) :
    ∀ (fuel pos : Nat) (t : List Char),
      replaceAllGo pat f (P.length + fuel) pos (P ++ t) =
        P ++ replaceAllGo pat f fuel (pos + P.length) t := by
  induction P with
  | nil => intro fuel pos t; simp
  | cons c P' ih =>
    intro fuel pos t
    have hc : matchAtoms pat (c :: (P' ++ t)) 0 [] = none :=
      hfail c (List.mem_cons_self c P') (P' ++ t)
    have hP' : ∀ d ∈ P', ∀ u, matchAtoms pat (d :: u) 0 [] = none :=
      fun d hd => hfail d (List.mem_cons_of_mem c hd)
    show replaceAllGo pat f (P'.length + 1 + fuel) pos (c :: (P' ++ t)) = _
    have hlen : P'.length + 1 + fuel = (P'.length + fuel) + 1 := by omega
    rw [hlen]
    simp only [replaceAllGo, hc]
    rw [ih hP' fuel (pos + 1) t]
    have hpos : pos + 1 + P'.length = pos + (P'.length + 1) := by omega
    rw [hpos]
    rfl

theorem replaceAll_whole (pat : List Atom)
    (f : Nat → List Char → List (Nat × Nat) → List Char) (s : List Char)
    (marks : List (Nat × Nat)) (hne : s ≠ [])
    (hm : matchAtoms pat s 0 [] = some (s.length, marks)) :
    replaceAll pat f s = f 0 s marks := by
  obtain ⟨c, rest, rfl⟩ := List.exists_cons_of_ne_nil hne
  show replaceAllGo pat f (rest.length + 1) 0 (c :: rest) = _
  simp only [replaceAllGo, hm]
  rw [if_neg (by simp), List.take_length, List.drop_length,
    replaceAllGo_nil, List.append_nil]

theorem yield_span_match (Nl E Dl t : List Char)
    (hE : ∀ c ∈ E, c ≠ '>') (hD : ∀ c ∈ Dl, c ≠ '<') :
    matchAtoms (yieldPatternAtoms Nl)
      ("<yield name=".toList ++ ('"' :: (Nl ++ ('"' :: (E ++ ('>' ::
        (Dl ++ ("</yield>".toList ++ t)))))))) 0 [] =
    some (13 + Nl.length + 1 + E.length + 1 + Dl.length + 8,
      [(1, 13 + Nl.length + 1 + E.length + 1 + Dl.length),
       (0, 13 + Nl.length + 1 + E.length + 1)]) := by
  apply matchAtoms_lit_run (l := "<yield".toList)
  apply matchAtoms_plus_run [' '] _ _ _ (by decide) (by decide)
    (runLen_zero_of_head _ _ _ (by decide))
  apply matchAtoms_lit_run (l := "name=".toList)
  apply matchAtoms_one_run _ _ _ (by decide)
  apply matchAtoms_lit_run (l := Nl)
  apply matchAtoms_one_run _ _ _ (by decide)
  apply matchAtoms_star_run E _ _ _
    (fun c hc => by simp [bne_iff_ne]; exact hE c hc)
    (runLen_zero_of_head _ _ _ (by decide))
  apply matchAtoms_lit_run (l := ['>'])
  apply matchAtoms_mark_run
  apply matchAtoms_star_run Dl _ _ _
    (fun c hc => by simp [bne_iff_ne]; exact hD c hc)
    (runLen_zero_of_head _ _ _ (by decide))
  apply matchAtoms_mark_run
  apply matchAtoms_lit_run (l := "</yield>".toList)
  rw [matchAtoms_nil]
  have h6 : ("<yield".toList).length = 6 := rfl
  have h5 : ("name=".toList).length = 5 := rfl
  have h8 : ("</yield>".toList).length = 8 := rfl
  simp only [Option.some.injEq, Prod.mk.injEq, List.cons.injEq, h6, h5, h8,
    List.length_cons, List.length_nil, true_and, and_true]

theorem replaceAllGo_match_here (pat : List Atom)
    (f : Nat → List Char → List (Nat × Nat) → List Char) (S T : List Char)
    (marks : List (Nat × Nat)) (fuel pos : Nat) (hne : S ≠ [])
    (hm : matchAtoms pat (S ++ T) 0 [] = some (S.length, marks)) :
    replaceAllGo pat f (fuel + 1) pos (S ++ T) =
      f pos S marks ++ replaceAllGo pat f fuel (pos + S.length) T := by
  obtain ⟨c, S', rfl⟩ := List.exists_cons_of_ne_nil hne
  rw [List.cons_append] at hm
  show replaceAllGo pat f (fuel + 1) pos (c :: (S' ++ T)) = _
  simp only [replaceAllGo, hm]
  rw [if_neg (by simp)]
  rw [show (c :: (S' ++ T)) = (c :: S') ++ T from rfl]
  rw [List.take_left, List.drop_left]

theorem replaceAllGo_all_fail (pat : List Atom)
    (f : Nat → List Char → List (Nat × Nat) → List Char) (P : List Char)
    (hfail : ∀ c ∈ P, ∀ u, matchAtoms pat (c :: u) 0 [] = none) :
    ∀ fuel pos, replaceAllGo pat f fuel pos P = P := by
  induction P with
  | nil => intro fuel pos; exact replaceAllGo_nil pat f fuel pos
  | cons c P' ih =>
    intro fuel pos
    cases fuel with
    | zero => rfl
    | succ f' =>
      have hc : matchAtoms pat (c :: P') 0 [] = none :=
        hfail c (List.mem_cons_self c P') P'
      simp only [replaceAllGo, hc]
      rw [ih (fun d hd => hfail d (List.mem_cons_of_mem c hd)) f' (pos + 1)]

theorem getSubstitutionGo_noDollar (matched before after : List Char)
    (caps : List (List Char)) (r : List Char) (h : '$' ∉ r) :
    ∀ fuel, getSubstitutionGo matched before after caps fuel r = r := by
  induction r with
  | nil => intro fuel; cases fuel <;> rfl
  | cons c r ih =>
    intro fuel
    cases fuel with
    | zero => rfl
    | succ fuel =>
      have hc : ¬ c = '$' := fun hc => h (hc ▸ List.mem_cons_self c r)
      simp only [getSubstitutionGo, if_neg hc]
      rw [ih (fun hm => h (List.mem_cons_of_mem c hm)) fuel]

/-- A replacement string without `$` is inserted literally: on it, JS
`GetSubstitution` is the identity whatever the match was. -/
theorem getSubstitution_noDollar (matched before after : List Char)
    (caps : List (List Char)) (r : List Char) (h : '$' ∉ r) :
    getSubstitution matched before after caps r = r :=
  getSubstitutionGo_noDollar matched before after caps r h r.length

/-- On a plain-character yield name, the dynamic pattern compiles to
`yieldPatternAtoms` and the inner replace is the `replaceAll` scan with
`GetSubstitution` applied at every match. -/
theorem replaceYieldsInAttribute_plain (attrValue : List Char)
    (yieldName repl : String)
    (h : (yieldName.toList).all regexPlainChar = true) :
    replaceYieldsInAttribute attrValue yieldName repl =
      replaceAll (yieldPatternAtoms yieldName.toList)
        (fun pos m marks =>
          getSubstitution m (attrValue.take pos)
            (attrValue.drop (pos + m.length)) [capture m marks 0] repl.toList)
        attrValue := by
  simp only [replaceYieldsInAttribute, yieldPattern]
  rw [if_pos h]

theorem yield_inner_replace (Nl E Dl P PO R : List Char)
    (hP : ∀ c ∈ P, c ≠ '<') (hPO : ∀ c ∈ PO, c ≠ '<')
    (hE : ∀ c ∈ E, c ≠ '>') (hD : ∀ c ∈ Dl, c ≠ '<') :
    replaceAll (yieldPatternAtoms Nl) (fun _ _ _ => R)
      (P ++ ("<yield name=".toList ++ ('\x22' :: (Nl ++ ('\x22' :: (E ++ ('>' ::
        (Dl ++ ("</yield>".toList ++ PO))))))))) =
    P ++ (R ++ PO) := by
  have hfailP : ∀ c ∈ P, ∀ u,
      matchAtoms (yieldPatternAtoms Nl) (c :: u) 0 [] = none :=
    fun c hc u => matchAtoms_lit_head_ne u 0 [] (hP c hc)
  have hfailPO : ∀ c ∈ PO, ∀ u,
      matchAtoms (yieldPatternAtoms Nl) (c :: u) 0 [] = none :=
    fun c hc u => matchAtoms_lit_head_ne u 0 [] (hPO c hc)
  set TAIL : List Char := "<yield name=".toList ++ ('\x22' :: (Nl ++ ('\x22' :: (E ++ ('>' ::
    (Dl ++ ("</yield>".toList ++ PO))))))) with hTAIL
  set SPAN : List Char := "<yield name=".toList ++ ('\x22' :: (Nl ++ ('\x22' :: (E ++ ('>' ::
    (Dl ++ "</yield>".toList)))))) with hSPAN
  have hT : TAIL = SPAN ++ PO := by
    rw [hTAIL, hSPAN]
    simp [List.append_assoc]
  have hm : matchAtoms (yieldPatternAtoms Nl) TAIL 0 [] =
      some (13 + Nl.length + 1 + E.length + 1 + Dl.length + 8,
        [(1, 13 + Nl.length + 1 + E.length + 1 + Dl.length),
         (0, 13 + Nl.length + 1 + E.length + 1)]) :=
    yield_span_match Nl E Dl PO hE hD
  have hL : SPAN.length = 13 + Nl.length + 1 + E.length + 1 + Dl.length + 8 := by
    rw [hSPAN]
    simp [List.length_append]
    omega
  have hSne : SPAN ≠ [] := by
    intro hcon
    have := congrArg List.length hcon
    rw [hL] at this
    simp at this
  have hm' : matchAtoms (yieldPatternAtoms Nl) (SPAN ++ PO) 0 [] =
      some (SPAN.length,
        [(1, 13 + Nl.length + 1 + E.length + 1 + Dl.length),
         (0, 13 + Nl.length + 1 + E.length + 1)]) := by
    rw [← hT, hL]
    exact hm
  show replaceAllGo (yieldPatternAtoms Nl) (fun _ _ _ => R)
    (P ++ TAIL).length 0 (P ++ TAIL) = _
  have hlen : (P ++ TAIL).length = P.length + TAIL.length := by simp
  rw [hlen, replaceAllGo_skip (yieldPatternAtoms Nl) (fun _ _ _ => R) P hfailP
    TAIL.length 0 TAIL]
  have hTlen : TAIL.length = (SPAN.length - 1 + PO.length) + 1 := by
    rw [hT]
    simp [List.length_append]
    omega
  rw [hT, ← hT, hTlen, hT,
    replaceAllGo_match_here (yieldPatternAtoms Nl) (fun _ _ _ => R) SPAN PO
      [(1, 13 + Nl.length + 1 + E.length + 1 + Dl.length),
       (0, 13 + Nl.length + 1 + E.length + 1)]
      (SPAN.length - 1 + PO.length) (0 + P.length) hSne hm',
    replaceAllGo_all_fail (yieldPatternAtoms Nl) (fun _ _ _ => R) PO hfailPO _ _]


/-- Running the rewriter over an attribute `a="pre<yield name="N"EXTRA>D</yield>post"`
(word-character attribute name, no stray quotes or angle brackets in the
free text, `EXTRA` an arbitrary run of further attribute text such as
` optional`), for a yield name of plain pattern characters and a chosen
replacement text containing no `$`: the embedded placeholder span is
replaced by the rewriter's replacement text and everything else is
preserved. -/
theorem attrTemplateRewrite (M : SlotMap) (a pre name extra d post : String)
    (hane : a.data ≠ []) (ha : ∀ c ∈ a.data, isWordChar c = true)
    (hpre : ∀ c ∈ pre.data, c ≠ '"' ∧ c ≠ '<')
    (hnane : name.data ≠ [])
    (hname : ∀ c ∈ name.data, c ≠ '"' ∧ c ≠ '\'')
    (hplain : ∀ c ∈ name.data, regexPlainChar c = true)
    (hextra : ∀ c ∈ extra.data, c ≠ '>')
    (hd : ∀ c ∈ d.data, c ≠ '<')
    (hpost : ∀ c ∈ post.data, c ≠ '"' ∧ c ≠ '<')
    (hdollar : '$' ∉ (yieldReplacement M name d).data) :
    replaceYieldsInAttributes
        (a ++ "=\"" ++ pre ++ "<yield name=\"" ++ name ++ "\"" ++ extra ++ ">"
          ++ d ++ "</yield>" ++ post ++ "\"") M =
      a ++ "=\"" ++ pre ++ yieldReplacement M name d ++ post ++ "\"" := by
  set A : List Char := a.data with hA
  set P : List Char := pre.data with hP
  set Nl : List Char := name.data with hNl
  set E : List Char := extra.data with hE
  set Dl : List Char := d.data with hDl
  set PO : List Char := post.data with hPO
  set S₀ : List Char := A ++ ('=' :: '"' :: (P ++ ("<yield name=".toList ++ ('"' ::
    (Nl ++ ('"' :: (E ++ ('>' :: (Dl ++ ("</yield>".toList ++
      (PO ++ ['"'])))))))))))  with hS₀
  have hmatch := attr_match A P Nl E Dl PO hane ha
    (fun c hc => (hpre c hc).1) hnane
    (fun c hc => ⟨(hname c hc).1, (hname c hc).2⟩) hextra hd
    (fun c hc => (hpost c hc).1)
  have hS : (a ++ "=\"" ++ pre ++ "<yield name=\"" ++ name ++ "\"" ++ extra ++ ">"
      ++ d ++ "</yield>" ++ post ++ "\"").toList = S₀ := by
    rw [hS₀]
    simp only [String.toList, String.data_append, List.append_assoc,
      hA, hP, hNl, hE, hDl, hPO]
    rfl
  set MARKS : List (Nat × Nat) :=
    [(3, A.length + 2 + P.length + 13 + Nl.length + 1 + E.length + 1
          + Dl.length + 8 + PO.length),
     (7, A.length + 2 + P.length + 13 + Nl.length + 1 + E.length + 1
          + Dl.length),
     (6, A.length + 2 + P.length + 13 + Nl.length + 1 + E.length + 1),
     (5, A.length + 2 + P.length + 13 + Nl.length),
     (4, A.length + 2 + P.length + 13),
     (2, A.length + 2),
     (1, A.length),
     (0, 0)] with hMARKS
  have h12 : ("<yield name=".toList).length = 12 := rfl
  have h8 : ("</yield>".toList).length = 8 := rfl
  have hlenS : S₀.length = A.length + 2 + P.length + 13 + Nl.length + 1
      + E.length + 1 + Dl.length + 8 + PO.length + 1 := by
    rw [hS₀]
    simp only [List.length_append, List.length_cons, List.length_nil, h12, h8]
    omega
  have hne : S₀ ≠ [] := by
    rw [hS₀]
    intro hcon
    exact hane (List.append_eq_nil.mp hcon).1
  have hm' : matchAtoms attrPattern S₀ 0 [] = some (S₀.length, MARKS) := by
    rw [hlenS, hMARKS]
    exact hmatch
  simp only [replaceYieldsInAttributes]
  rw [hS, replaceAll_whole attrPattern _ S₀ MARKS hne hm']
  have h13 : ("<yield name=\"".toList).length = 13 := rfl
  set V : List Char := P ++ ("<yield name=".toList ++ ('"' :: (Nl ++ ('"' ::
    (E ++ ('>' :: (Dl ++ ("</yield>".toList ++ PO)))))))) with hV
  have hcap0 : capture S₀ MARKS 0 = A := by
    show (S₀.take A.length).drop 0 = A
    rw [List.drop_zero, hS₀]
    exact List.take_left _ _
  have hcap1 : capture S₀ MARKS 1 = V := by
    show (S₀.take (A.length + 2 + P.length + 13 + Nl.length + 1 + E.length + 1
        + Dl.length + 8 + PO.length)).drop (A.length + 2) = V
    have hx : S₀ = (A ++ ['=', '"']) ++ (V ++ ['"']) := by
      rw [hS₀, hV]
      simp only [List.append_assoc, List.cons_append, List.nil_append]
    rw [hx]
    refine capture_middle _ _ _ _ _ ?_ ?_
    · simp [List.length_append]
    · rw [hV]
      simp only [List.length_append, List.length_cons, List.length_nil, h12, h8]
      omega
  have hcap2 : capture S₀ MARKS 2 = Nl := by
    show (S₀.take (A.length + 2 + P.length + 13 + Nl.length)).drop
      (A.length + 2 + P.length + 13) = Nl
    have hx : S₀ = (A ++ ('=' :: '"' :: (P ++ "<yield name=\"".toList))) ++
        (Nl ++ ('"' :: (E ++ ('>' :: (Dl ++ ("</yield>".toList ++
          (PO ++ ['"']))))))) := by
      rw [hS₀]
      simp only [List.append_assoc, List.cons_append, List.nil_append]
      rfl
    rw [hx]
    refine capture_middle _ _ _ _ _ ?_ ?_
    · simp only [List.length_append, List.length_cons, List.length_nil, h13]
      omega
    · simp only [List.length_append, List.length_cons, List.length_nil, h13]
      omega
  have hcap3 : capture S₀ MARKS 3 = Dl := by
    show (S₀.take (A.length + 2 + P.length + 13 + Nl.length + 1 + E.length + 1
        + Dl.length)).drop (A.length + 2 + P.length + 13 + Nl.length + 1
        + E.length + 1) = Dl
    have hx : S₀ = (A ++ ('=' :: '"' :: (P ++ ("<yield name=\"".toList ++
        (Nl ++ ('"' :: (E ++ ['>']))))))) ++
        (Dl ++ ("</yield>".toList ++ (PO ++ ['"']))) := by
      rw [hS₀]
      simp only [List.append_assoc, List.cons_append, List.nil_append]
      rfl
    rw [hx]
    refine capture_middle _ _ _ _ _ ?_ ?_
    · simp only [List.length_append, List.length_cons, List.length_nil, h13]
      omega
    · simp only [List.length_append, List.length_cons, List.length_nil, h13]
      omega
  rw [hcap0, hcap1, hcap2, hcap3]
  have hmkN : ({ data := Nl } : String) = name := by rw [hNl]
  have hmkD : ({ data := Dl } : String) = d := by rw [hDl]
  rw [hmkN, hmkD]
  have htl : name.toList = Nl := by rw [hNl]; rfl
  have hall : (name.toList).all regexPlainChar = true :=
    List.all_eq_true.mpr (fun c hc => hplain c hc)
  rw [replaceYieldsInAttribute_plain V name (yieldReplacement M name d) hall]
  have hcb : (fun pos m marks =>
      getSubstitution m (V.take pos) (V.drop (pos + m.length))
        [capture m marks 0] (yieldReplacement M name d).toList) =
      (fun _ _ _ => ((yieldReplacement M name d).toList : List Char)) := by
    funext pos m marks
    exact getSubstitution_noDollar _ _ _ _ _ hdollar
  rw [hcb, htl, hV,
    yield_inner_replace Nl E Dl P PO ((yieldReplacement M name d).toList)
      (fun c hc => (hpre c hc).2) (fun c hc => (hpost c hc).2) hextra hd]
  refine String.ext ?_
  simp only [String.data_append, List.append_assoc]
  rfl

/-- The original C4 is false of the program: the inner replace receives its
replacement as a *string* (source line 143), so JS interprets `$` sequences
in it instead of inserting it literally.  Concretely, for the attribute
`class="<yield name="x">$&</yield>"` and an empty slot map the claim
predicts the span is replaced by the literal default `$&`, producing
`class="$&"`; the program expands `$&` to the whole matched span, so the
output is the input unchanged — not the claimed string. -/
theorem attribute_rewriter_dollar_counterexample :
    replaceYieldsInAttributes "class=\"<yield name=\"x\">$&</yield>\"" [] ≠
      "class=\"$&\"" ∧
    replaceYieldsInAttributes "class=\"<yield name=\"x\">$&</yield>\"" [] =
      "class=\"<yield name=\"x\">$&</yield>\"" := by
  constructor
  · decide
  · rfl

/-- C4 (amended): for every slot map `M`, every attribute of the template
shape `a="pre<yield name="N"EXTRA>D</yield>post"` whose yield name consists
of plain regex pattern characters and whose chosen replacement text contains
no `$` has its embedded placeholder span replaced by the rewriter with the
flattening of `M`'s bound content to its textual markup representation
(`contentToString`, which reconstructs open/close tags, attributes and
nested text recursively) when `N` is bound in `M`, and otherwise with the
literal default `D`, even when `D` is empty; the `optional` attribute plays
no role (the extra-attribute text `EXTRA` is arbitrary).  The two extra
hypotheses mark exactly where the original claim fails: the name is
interpolated unescaped into the inner `RegExp` source, so a name with
regex syntax characters compiles to a different pattern or throws, and the
inner replacement is a string, so `$` sequences in it are interpreted by
`GetSubstitution` rather than inserted literally.  The second conjunct
characterises the per-span replacement text exactly as the
bound-or-default choice of the claim. -/
theorem attribute_rewriter_spec :
    (∀ (M : SlotMap) (a pre name extra d post : String),
      a.data ≠ [] → (∀ c ∈ a.data, isWordChar c = true) →
      (∀ c ∈ pre.data, c ≠ '"' ∧ c ≠ '<') →
      name.data ≠ [] →
      (∀ c ∈ name.data, c ≠ '"' ∧ c ≠ '\'') →
      (∀ c ∈ name.data, regexPlainChar c = true) →
      (∀ c ∈ extra.data, c ≠ '>') →
      (∀ c ∈ d.data, c ≠ '<') →
      (∀ c ∈ post.data, c ≠ '"' ∧ c ≠ '<') →
      '$' ∉ (yieldReplacement M name d).data →
      replaceYieldsInAttributes
          (a ++ "=\"" ++ pre ++ "<yield name=\"" ++ name ++ "\"" ++ extra ++ ">"
            ++ d ++ "</yield>" ++ post ++ "\"") M =
        a ++ "=\"" ++ pre ++ yieldReplacement M name d ++ post ++ "\"") ∧
    (∀ (M : SlotMap) (N D : String),
      yieldReplacement M N D =
        match alookup N M with
        | some c => contentToString c
        | none => D) := by
  refine ⟨fun M a pre name extra d post h1 h2 h3 h4 h5 h6 h7 h8 h9 h10 =>
    attrTemplateRewrite M a pre name extra d post h1 h2 h3 h4 h5 h6 h7 h8 h9 h10, ?_⟩
  intro M N D
  unfold yieldReplacement
  cases alookup N M with
  | some c => rfl
  | none =>
    by_cases hD : D = ""
    · simp [hD]
    · simp [hD]

theorem attribute_rewriter_spec_witness :
    replaceYieldsInAttributes
        ("class" ++ "=\"" ++ "btn " ++ "<yield name=\"" ++ "size" ++ "\"" ++ " optional" ++ ">"
          ++ "btn--md" ++ "</yield>" ++ " end" ++ "\"")
        [("size", [PNode.text "btn--lg"])] =
      "class" ++ "=\"" ++ "btn "
        ++ yieldReplacement [("size", [PNode.text "btn--lg"])] "size" "btn--md"
        ++ " end" ++ "\"" ∧
    replaceYieldsInAttributes
        ("id" ++ "=\"" ++ "x " ++ "<yield name=\"" ++ "n" ++ "\"" ++ "" ++ ">"
          ++ "" ++ "</yield>" ++ "" ++ "\"") [] =
      "id" ++ "=\"" ++ "x " ++ yieldReplacement [] "n" "" ++ "" ++ "\"" :=
  ⟨attribute_rewriter_spec.1 [("size", [PNode.text "btn--lg"])]
      "class" "btn " "size" " optional" "btn--md" " end"
      (by decide) (by decide) (by decide) (by decide) (by decide)
      (by decide) (by decide) (by decide) (by decide) (by decide),
   attribute_rewriter_spec.1 [] "id" "x " "n" "" "" ""
      (by decide) (by decide) (by decide) (by decide) (by decide)
      (by decide) (by decide) (by decide) (by decide) (by decide)⟩
